import Mathlib

/-!
Verification of the Minesweeper deduction engine (`src/minesweeper/v4.py`
and the oracle in `src/minesweeper/__init__.py`).

The engine is shallowly embedded: the board is the 2-d list of cell tokens
produced by splitting the input string, the mutable `unknowns` set is a
duplicate-free list, frozenset-keyed dictionaries become association lists
with last-writer-wins insertion, and Python set iteration is instantiated
with a concrete deterministic order (any order is a faithful instance, since
Python leaves set/dict-comprehension iteration order unspecified for sets and
insertion-ordered for dicts, which the association lists reproduce).
Exceptions (the oracle's assertion on a mine, index errors) are modelled by
`Option`.  The module-level global `minesweeper.key` read by `open` becomes
an explicit `key` parameter.  Two ghost fields (`flagged`, `opened`) record
the positions the engine flagged and the positions it passed to the oracle;
they are write-only and never influence control flow.
-/

namespace Minesweeper

/-- Grid positions `(row, column)`. -/
abbrev Pos := Nat × Nat

/-- A board: list of rows of cell tokens (`[line.split(' ') for line in map.splitlines()]`). -/
abbrev Board := List (List String)

/-- Cell lookup `board[r][c]`, with an out-of-range default (the source only
indexes in range; the default makes the embedding total). -/
def cellAt (b : Board) (p : Pos) : String := (b.getD p.1 []).getD p.2 ""

/-- Cell update `board[r][c] = v` (no-op out of range, as the source never
writes out of range). -/
def setCell (b : Board) (p : Pos) (v : String) : Board :=
  b.set p.1 ((b.getD p.1 []).set p.2 v)

/-- Python `str.isnumeric()` restricted to the ASCII tokens the solver
manipulates (digit strings). -/
def str_isnumeric (s : String) : Bool := !s.isEmpty && s.toList.all (·.isDigit)

/-- Python `int(...)` applied to a digit token. -/
def parseNat (s : String) : Nat :=
  s.toList.foldl (fun a c => a * 10 + (c.toNat - 48)) 0

/-- Decimal digit characters of a natural number, most significant first
(structural recursion on a fuel bound so that the definition reduces). -/
def natDigitsGo : Nat → Nat → List Char
  | 0, _ => []
  | fuel + 1, n =>
    if n < 10 then [Char.ofNat (48 + n)]
    else natDigitsGo fuel (n / 10) ++ [Char.ofNat (48 + n % 10)]

/-- Decimal digit characters of a natural number, most significant first. -/
def natDigits (n : Nat) : List Char := natDigitsGo (n + 1) n

/-- Python `str(n)` for a natural number. -/
def natToStr (n : Nat) : String := String.mk (natDigits n)

/-- The eight neighbor offsets, in the order the source's generator yields
them (`roffset` outer, `coffset` inner, skipping `(0, 0)`). -/
def neighborOffsets : List (Int × Int) :=
  [(-1, -1), (-1, 0), (-1, 1), (0, -1), (0, 1), (1, -1), (1, 0), (1, 1)]

/-- `get_neighbors(rnum, cnum, board)`: in-bounds 8-neighbors of a square. -/
def get_neighbors (rnum cnum : Nat) (b : Board) : List Pos :=
  neighborOffsets.filterMap fun off =>
    if 0 ≤ (rnum : Int) + off.1 ∧ (rnum : Int) + off.1 < (b.length : Int) ∧
        0 ≤ (cnum : Int) + off.2 ∧ (cnum : Int) + off.2 < ((b.headD []).length : Int)
    then some (((rnum : Int) + off.1).toNat, ((cnum : Int) + off.2).toNat) else none

/-- Split a character list at every occurrence of `c` (the separator), like
Python `str.split(c)`: the result always has one more piece than separators. -/
def splitOnChar (c : Char) : List Char → List (List Char)
  | [] => [[]]
  | ch :: rest =>
    match splitOnChar c rest with
    | [] => [[ch]]
    | cur :: done => if ch = c then [] :: cur :: done else (ch :: cur) :: done

/-- `[line.split(' ') for line in map.splitlines()]` (a trailing newline
produces a final empty row token, a minor edge divergence from Python
`splitlines`, immaterial to the claims). -/
def parseBoard (mapStr : String) : Board :=
  (splitOnChar '\n' mapStr.toList).map
    (fun line => (splitOnChar ' ' line).map (fun cs => String.mk cs))

/-- `[[c for c in _row.split()] for _row in key.splitlines()]` — the key grid
as parsed inside the oracle (whitespace split drops empty tokens; as in the
solver, tabs are not treated as separators). -/
def parseKey (key : String) : Board :=
  (splitOnChar '\n' key.toList).map
    (fun line => ((splitOnChar ' ' line).map (fun cs => String.mk cs)).filter
      (fun t => !t.isEmpty))

/-- `_key[row][column]` with the index errors made explicit. -/
def keyCell? (key : String) (row col : Nat) : Option String :=
  ((parseKey key).get? row).bind (fun r => r.get? col)

/-- `minesweeper.open(row, column)`: reads the key grid, asserts the cell is
not a mine, and parses the hint.  `none` models the raised exceptions
(assertion failure on a mine token, index error, parse error).  The
module-level global `key` is an explicit parameter. -/
def open_ (key : String) (row col : Nat) : Option Nat :=
  match keyCell? key row col with
  | none => none
  | some res =>
    if res = "x" then none
    else if str_isnumeric res then some (parseNat res) else none

/-- `flag(*args)`: the token written for a flagged mine. -/
def flagTok : String := "x"

/-- Engine state: the mutable board, the `unknowns` set (as a duplicate-free
list), `nmines_remaining`, plus two ghost traces (`flagged`: positions the
engine flagged; `opened`: positions passed to the oracle).  The ghost fields
are write-only and do not influence any control flow. -/
structure SState where
  board : Board
  unknowns : List Pos
  nmines : Int
  flagged : List Pos
  opened : List Pos
deriving Repr, DecidableEq

/-- One iteration of the flagging loops shared by the heuristics:
`if pos in unknowns: unknowns.remove(pos); board[...] = flag(...); nmines_remaining -= 1`. -/
def flagOne (p : Pos) (s : SState) : SState :=
  if p ∈ s.unknowns then
    { s with
      unknowns := s.unknowns.erase p
      board := setCell s.board p flagTok
      nmines := s.nmines - 1
      flagged := s.flagged ++ [p] }
  else s

/-- The `for pos in ...` flagging loops shared by the heuristics. -/
def flagCells (ps : List Pos) (s : SState) : SState :=
  match ps with
  | [] => s
  | p :: rest => flagCells rest (flagOne p s)

/-- One iteration of the opening loops shared by the heuristics:
`if pos in unknowns: unknowns.remove(pos); board[...] = str(open(*pos))`.
An oracle failure propagates (`none`). -/
def openOne (key : String) (p : Pos) (s : SState) : Option SState :=
  if p ∈ s.unknowns then
    match open_ key p.1 p.2 with
    | none => none
    | some k =>
      some
        { s with
          unknowns := s.unknowns.erase p
          board := setCell s.board p (natToStr k)
          opened := s.opened ++ [p] }
  else some s

/-- The `for pos in ...` opening loops shared by the heuristics. -/
def openCells (key : String) (ps : List Pos) (s : SState) : Option SState :=
  match ps with
  | [] => some s
  | p :: rest =>
    match openOne key p s with
    | none => none
    | some t => openCells key rest t

/-- The body of `basic_analysis`'s `for rnum, cnum in frontier` loop for one
frontier square: partition the neighbors into `local_mines`/`local_unknowns`,
then open all local unknowns if `hint <= len(local_mines)`, or flag them all
if `hint == len(local_mines) + len(local_unknowns)`. -/
def basicStep (key : String) (rc : Pos) (s : SState) : Option SState :=
  let hint := parseNat (cellAt s.board rc)
  let nbrs := get_neighbors rc.1 rc.2 s.board
  let localMines := nbrs.filter (fun p => cellAt s.board p = "x")
  let localUnknowns := nbrs.filter (fun p => cellAt s.board p = "?")
  if hint ≤ localMines.length then openCells key localUnknowns s
  else if hint = localMines.length + localUnknowns.length then
    some (flagCells localUnknowns s)
  else some s

/-- `basic_analysis`: one pass over the frontier. -/
def basic_analysis (key : String) (frontier : List Pos) (s : SState) : Option SState :=
  match frontier with
  | [] => some s
  | rc :: rest =>
    match basicStep key rc s with
    | none => none
    | some t => basic_analysis key rest t

/-- Zones: frozensets of positions. -/
abbrev Zone := Finset Pos

/-- Row-major order on positions, used to enumerate a zone's members (Python
iterates sets in an unspecified order; this fixed order is the embedding's
deterministic instance of it). -/
def posLe (p q : Pos) : Prop := p.1 < q.1 ∨ (p.1 = q.1 ∧ p.2 ≤ q.2)

instance : DecidableRel posLe := fun p q => by unfold posLe; infer_instance

instance : IsTrans Pos posLe :=
  ⟨by intro a b c hab hbc; unfold posLe at *; omega⟩

instance : IsAntisymm Pos posLe :=
  ⟨by
    intro a b hab hba
    unfold posLe at *
    have h1 : a.1 = b.1 := by omega
    have h2 : a.2 = b.2 := by omega
    exact Prod.ext h1 h2⟩

instance : IsTotal Pos posLe :=
  ⟨by intro a b; unfold posLe; omega⟩

/-- The members of a zone as a list (`for pos in group`), produced by a
structural insertion sort lifted to the underlying multiset. -/
def zoneList (z : Zone) : List Pos :=
  Quot.liftOn z.val (List.insertionSort posLe) (fun a b hab =>
    List.eq_of_perm_of_sorted
      ((List.perm_insertionSort posLe a).trans
        (Quotient.exact (Quotient.sound hab) |>.trans
          (List.perm_insertionSort posLe b).symm))
      (List.sorted_insertionSort posLe a) (List.sorted_insertionSort posLe b))

/-- A frozenset-keyed dict of mine counts, as an insertion-ordered
association list. -/
abbrev ZoneStore := List (Zone × Int)

/-- The frozenset of `?`-neighbors of a frontier square
(`frozenset(neighbor for neighbor in get_neighbors(*pos, board) if neighbor in unknowns)`). -/
def zoneKey (b : Board) (unknowns : List Pos) (pos : Pos) : Zone :=
  ((get_neighbors pos.1 pos.2 b).filter (fun q => q ∈ unknowns)).toFinset

/-- `count_remaining_mines(pos, board)`:
`int(board[pos]) - #('x' neighbors of pos)`. -/
def count_remaining_mines (pos : Pos) (b : Board) : Int :=
  (parseNat (cellAt b pos) : Int) -
    (((get_neighbors pos.1 pos.2 b).filter (fun q => cellAt b q = "x")).length : Int)

/-- Python dict assignment `d[k] = v`: overwrite in place if the key exists
(keeping the key's original position), else append. -/
def dictInsert (d : ZoneStore) (k : Zone) (v : Int) : ZoneStore :=
  if d.any (fun e => e.1 = k) then d.map (fun e => if e.1 = k then (k, v) else e)
  else d ++ [(k, v)]

/-- Python dict read `d[k]`, as an `Option`. -/
def dictFind? (d : ZoneStore) (k : Zone) : Option Int :=
  (d.find? (fun e => e.1 = k)).map (fun e => e.2)

/-- Python dict read `d[k]`; default `0` stands in for the `KeyError` that
the source cannot raise at its call sites (the keys are always present). -/
def dictFind (d : ZoneStore) (k : Zone) : Int := (dictFind? d k).getD 0

/-- `get_groups(board, frontier, unknowns)`: the dict comprehension mapping
each frontier square's zone to its remaining-mine count.  Duplicate keys are
overwritten by later frontier squares, as in a Python dict comprehension. -/
def get_groups (b : Board) (frontier : List Pos) (unknowns : List Pos) : ZoneStore :=
  frontier.foldl
    (fun acc pos => dictInsert acc (zoneKey b unknowns pos) (count_remaining_mines pos b)) []

/-- The ordered pair enumeration of the `for group ... for other ...` nests. -/
def pairsOf (g : ZoneStore) : List ((Zone × Int) × (Zone × Int)) :=
  g.flatMap (fun x => g.map (fun y => (x, y)))

/-- `parents`: dict from a source group to the set of its component groups. -/
abbrev Parents := List (Zone × List Zone)

/-- `parents[k] = parents.setdefault(k, set()); parents[k].add(v)`. -/
def parAdd (par : Parents) (k : Zone) (v : Zone) : Parents :=
  if par.any (fun e => e.1 = k) then
    par.map (fun e => if e.1 = k then (k, if v ∈ e.2 then e.2 else e.2 ++ [v]) else e)
  else par ++ [(k, [v])]

/-- First phase of `inclusive_deduction`: for every ordered pair with
`group < other` (proper subset), record the component groups
`(group & other, nmines)` and `(other - group, other_nmines - nmines)` in
`new_groups` and both components as children of `other` in `parents`. -/
def phase1 (pl : List ((Zone × Int) × (Zone × Int))) (ng : ZoneStore) (par : Parents) :
    ZoneStore × Parents :=
  match pl with
  | [] => (ng, par)
  | ((g, gn), (o, on_)) :: rest =>
    if g ⊆ o ∧ g ≠ o then
      let same := g ∩ o
      let rem := o \ g
      phase1 rest (dictInsert (dictInsert ng same gn) rem (on_ - gn))
        (parAdd (parAdd par o same) o rem)
    else phase1 rest ng par

/-- The ordered pair enumeration of the `for child ... for other_child ...` nests. -/
def childPairs (children : List Zone) : List (Zone × Zone) :=
  children.flatMap (fun c => children.map (fun oc => (c, oc)))

/-- Second phase, inner loops: for disjoint children of a parent, derive
`parent - child - other_child` with count
`groups[parent] - new_groups[child] - new_groups[other_child]`.
(The block updating `parents` with these new children is commented out in
the source and therefore absent here.) -/
def phase2Step (groups : ZoneStore) (parent : Zone) (cp : List (Zone × Zone))
    (ng : ZoneStore) : ZoneStore :=
  match cp with
  | [] => ng
  | (c, oc) :: rest =>
    if c ∩ oc = ∅ then
      let nc := (parent \ c) \ oc
      if nc ≠ ∅ then
        phase2Step groups parent rest
          (dictInsert ng nc (dictFind groups parent - dictFind ng c - dictFind ng oc))
      else phase2Step groups parent rest ng
    else phase2Step groups parent rest ng

/-- Second phase of `inclusive_deduction`: the `for parent, children in parents` loop. -/
def phase2 (groups : ZoneStore) (par : Parents) (ng : ZoneStore) : ZoneStore :=
  match par with
  | [] => ng
  | (parent, children) :: rest =>
    phase2 groups rest (phase2Step groups parent (childPairs children) ng)

/-- The full `new_groups` dict derived by `inclusive_deduction` from a store. -/
def derivedGroups (groups : ZoneStore) : ZoneStore :=
  let p1 := phase1 (pairsOf groups) [] []
  phase2 groups p1.2 p1.1

/-- The `for group, nmines in new_groups.items()` update loop of
`inclusive_deduction`: flag a group whose size equals its count, open a
group whose count is zero. -/
def applyGroups (key : String) (ng : ZoneStore) (s : SState) : Option SState :=
  match ng with
  | [] => some s
  | (z, c) :: rest =>
    if (z.card : Int) = c then applyGroups key rest (flagCells (zoneList z) s)
    else if c = 0 then
      match openCells key (zoneList z) s with
      | none => none
      | some t => applyGroups key rest t
    else applyGroups key rest s

/-- `inclusive_deduction(board, frontier, nmines_remaining, unknowns)`. -/
def inclusive_deduction (key : String) (frontier : List Pos) (s : SState) : Option SState :=
  applyGroups key (derivedGroups (get_groups s.board frontier s.unknowns)) s

/-- The pair scan of `exclusive_deduction`, including its early `return`
after the first flagging action. -/
def exGo (pl : List ((Zone × Int) × (Zone × Int))) (s : SState) : SState :=
  match pl with
  | [] => s
  | ((g, gn), (o, on_)) :: rest =>
    let same := g ∩ o
    if same ≠ ∅ ∧ g ≠ o then
      let gr := g \ same
      let orr := o \ same
      let minS := max (gn - (gr.card : Int)) (max (on_ - (orr.card : Int)) 0)
      if minS ≠ 0 then
        if gn - minS = (gr.card : Int) then flagCells (zoneList gr) s
        else if on_ - minS = (orr.card : Int) then flagCells (zoneList orr) s
        else exGo rest s
      else exGo rest s
    else exGo rest s

/-- `exclusive_deduction(board, frontier, nmines_remaining, unknowns)`:
flags the next certain mines found by overlap reasoning, then returns. -/
def exclusive_deduction (frontier : List Pos) (s : SState) : SState :=
  exGo (pairsOf (get_groups s.board frontier s.unknowns)) s

/-- `numerical_deduction`: unimplemented in the source (prints and returns). -/
def numerical_deduction (s : SState) : SState := s

/-- The frontier recomputation at the top of the analysis loop:
numeric squares adjacent to some unknown. -/
def computeFrontier (s : SState) : List Pos :=
  ((s.unknowns.flatMap (fun p => get_neighbors p.1 p.2 s.board)).filter
    (fun q => str_isnumeric (cellAt s.board q))).dedup

/-- The `heuristics` list dispatch. -/
def runHeuristic (key : String) (frontier : List Pos) (idx : Nat) (s : SState) :
    Option SState :=
  match idx with
  | 0 => basic_analysis key frontier s
  | 1 => inclusive_deduction key frontier s
  | 2 => some (exclusive_deduction frontier s)
  | _ => some (numerical_deduction s)

/-- `get_board_str()`: rows joined by newlines, cells joined by single spaces. -/
def get_board_str (b : Board) : String :=
  String.intercalate "\n" (b.map (fun row => String.intercalate " " row))

/-- The analysis `while` loop of `solve_mine`.  `fuel` bounds the iteration
count (the source loop terminates because every iteration either removes an
unknown or advances `idx`; `solve_mine` below supplies sufficient fuel, and
exhausted fuel conservatively gives up with `'?'`). -/
def solveLoop (key : String) (fuel : Nat) (idx : Nat) (frontier : List Pos)
    (numUnknown : Nat) (s : SState) : Option (SState × String) :=
  match fuel with
  | 0 => some (s, "?")
  | fuel' + 1 =>
    if idx < 4 then
      let fr := if idx = 0 then computeFrontier s else frontier
      let nu := if idx = 0 then s.unknowns.length else numUnknown
      match runHeuristic key fr idx s with
      | none => none
      | some t =>
        if t.unknowns.length < nu then
          if t.unknowns = [] then some (t, get_board_str t.board)
          else solveLoop key fuel' 0 fr nu t
        else solveLoop key fuel' (idx + 1) fr nu t
    else some (s, "?")

/-- The initial `unknowns` set: every `?` at `(r, c)` with
`r in range(nrows)` and `c in range(ncols)`, `ncols = len(board[0])`. -/
def initUnknowns (b : Board) : List Pos :=
  (List.range b.length).flatMap (fun r =>
    (List.range (b.headD []).length).filterMap (fun c =>
      if cellAt b (r, c) = "?" then some (r, c) else none))

/-- `solve_mine(map, n)` with the final state exposed alongside the returned
string (`none` models a propagated exception). -/
def solveState (key mapStr : String) (n : Int) : Option (SState × String) :=
  let b := parseBoard mapStr
  let s0 : SState := ⟨b, initUnknowns b, n, [], []⟩
  solveLoop key (5 * s0.unknowns.length + 5) 0 [] 0 s0

/-- `solve_mine(map, n)`: the solved board string, or `'?'`. -/
def solve_mine (key mapStr : String) (n : Int) : Option String :=
  (solveState key mapStr n).map (fun pr => pr.2)

/-! ### Specification-side predicates -/

/-- Rectangularity of a parsed board (all rows as long as the first). -/
def Rectangular (b : Board) : Prop := ∀ row ∈ b, row.length = (b.headD []).length

/-- The engine's basic state invariant: `unknowns` is duplicate-free, every
unknown shows `?` on the board, every flagged position shows `x`, and every
opened position shows a numeric token. -/
def InvW (s : SState) : Prop :=
  s.unknowns.Nodup ∧
  (∀ p ∈ s.unknowns, cellAt s.board p = "?") ∧
  (∀ p ∈ s.flagged, cellAt s.board p = "x") ∧
  (∀ p ∈ s.opened, str_isnumeric (cellAt s.board p) = true)

/-- Converse coherence: every `?` cell is tracked in `unknowns` (true of
rectangular inputs and preserved by every operation). -/
def Coh2 (s : SState) : Prop := ∀ p, cellAt s.board p = "?" → p ∈ s.unknowns

/-- One engine step makes progress: unknowns never grow and no cell is ever
rewritten to `?`. -/
def Progress (s t : SState) : Prop :=
  (∀ p, p ∈ t.unknowns → p ∈ s.unknowns) ∧
  (∀ p, cellAt t.board p = "?" → cellAt s.board p = "?")

/-- A store is exact for a mine set `M`: each zone's count is precisely the
number of `M`-mines among its members (the spec's central zone invariant). -/
def ExactStore (M : Finset Pos) (d : ZoneStore) : Prop :=
  ∀ e ∈ d, e.2 = (((e.1 ∩ M).card : Int))

/-- `k` is a key of the store. -/
def isKey (d : ZoneStore) (k : Zone) : Prop := ∃ v, (k, v) ∈ d

/-- All zone members of a store lie in the given unknowns list. -/
def StoreSub (u : List Pos) (d : ZoneStore) : Prop := ∀ e ∈ d, ∀ p ∈ e.1, p ∈ u

/-- `ParOK groups ng par`: every parent is a key of `groups` and every child
is a key of `ng` contained in its parent. -/
def ParOK (groups ng : ZoneStore) (par : Parents) : Prop :=
  ∀ pe ∈ par, isKey groups pe.1 ∧ ∀ c ∈ pe.2, isKey ng c ∧ c ⊆ pe.1

/-- Every position resolved since `s0` received a value sound for the mine
set `M`: flagged positions are in `M`, revealed positions are not. -/
def SoundFrom (M : Finset Pos) (s0 t : SState) : Prop :=
  ∀ p, p ∈ s0.unknowns → p ∉ t.unknowns →
    (cellAt t.board p = "x" ∧ p ∈ M) ∨
    (str_isnumeric (cellAt t.board p) = true ∧ p ∉ M)

/-- The package of facts every engine operation satisfies: unknowns shrink,
no cell is rewritten to `?`, cells outside the initial unknowns are
untouched, the invariants are preserved, and the ghost traces grow. -/
structure Step (s t : SState) : Prop where
  sub : ∀ p, p ∈ t.unknowns → p ∈ s.unknowns
  noq : ∀ p, cellAt t.board p = "?" → cellAt s.board p = "?"
  stable : ∀ p, p ∉ s.unknowns → cellAt t.board p = cellAt s.board p
  inv : InvW s → InvW t
  coh : InvW s → Coh2 s → Coh2 t
  fmono : ∀ p, p ∈ s.flagged → p ∈ t.flagged
  omono : ∀ p, p ∈ s.opened → p ∈ t.opened

/-! ### Concrete scenario states used by witnesses and counterexamples -/

/-- Two overlapping zones `A = {(0,0),(0,1)} ↦ 1` and `B = {(0,1),(0,2)} ↦ 2`
(the claim C2 situation: forced minimum in the overlap equals `a` and
`A' = {(0,0)}` is nonempty). -/
def exState : SState :=
  ⟨[["?", "?", "?"], ["2", "x", "3"]], [(0, 0), (0, 1), (0, 2)], 2, [], []⟩

/-- A one-row board whose two frontier squares generate the same member-set
with conflicting counts (`1` vs `2`). -/
def dupBoard : Board := [["1", "?", "2"]]

/-- Board of the inclusive-deduction scenario: zones `{(0,0)} ↦ 1`,
`{(0,0),(2,0)} ↦ 1` and `{(2,0)} ↦ 0`, consistent with the single mine at
`(0,0)`. -/
def incBoard : Board := [["?", "1", "0"], ["1", "1", "0"], ["?", "0", "0"]]

/-- Engine state for the inclusive-deduction scenario. -/
def incState : SState := ⟨incBoard, [(0, 0), (2, 0)], 1, [], []⟩

/-! ### Cell access lemmas -/

theorem getD_of_le {α : Type} (l : List α) (i : Nat) (d : α) (h : l.length ≤ i) :
    l.getD i d = d := by
  simp [List.getD, List.getElem?_eq_none h]

theorem getD_set_ne {α : Type} (l : List α) {i j : Nat} (v d : α) (h : i ≠ j) :
    (l.set i v).getD j d = l.getD j d := by
  simp [List.getD, List.getElem?_set_ne h]

theorem getD_set_self {α : Type} (l : List α) {i : Nat} (v d : α) (h : i < l.length) :
    (l.set i v).getD i d = v := by
  simp [List.getD, List.getElem?_set_self, h]

theorem cellAt_bounds {b : Board} {p : Pos} (h : cellAt b p ≠ "") :
    p.1 < b.length ∧ p.2 < (b.getD p.1 []).length := by
  unfold cellAt at h
  by_cases h1 : p.1 < b.length
  · refine ⟨h1, ?_⟩
    by_cases h2 : p.2 < (b.getD p.1 []).length
    · exact h2
    · exact absurd (getD_of_le _ _ _ (by omega)) h
  · exfalso
    rw [getD_of_le b p.1 [] (by omega)] at h
    exact h (getD_of_le [] p.2 "" (by simp))

theorem cellAt_setCell_ne {b : Board} {p q : Pos} {v : String} (h : p ≠ q) :
    cellAt (setCell b q v) p = cellAt b p := by
  unfold cellAt setCell
  by_cases h1 : p.1 = q.1
  · have h2 : p.2 ≠ q.2 := fun hc => h (Prod.ext h1 hc)
    rw [h1]
    by_cases hr : q.1 < b.length
    · rw [getD_set_self b _ [] hr, getD_set_ne _ _ _ (fun hc => h2 hc.symm)]
    · have e1 : (List.set b q.1 ((b.getD q.1 []).set q.2 v)).getD q.1 [] = [] :=
        getD_of_le _ _ _ (by rw [List.length_set]; omega)
      rw [e1, getD_of_le b q.1 [] (by omega)]
  · rw [getD_set_ne _ _ _ (fun hc => h1 hc.symm)]

theorem cellAt_setCell_self {b : Board} {q : Pos} {v : String}
    (h1 : q.1 < b.length) (h2 : q.2 < (b.getD q.1 []).length) :
    cellAt (setCell b q v) q = v := by
  unfold cellAt setCell
  rw [getD_set_self _ _ _ h1, getD_set_self _ _ _ h2]

theorem cellAt_setCell_or {b : Board} {p q : Pos} {v : String} :
    cellAt (setCell b q v) p = v ∨ cellAt (setCell b q v) p = cellAt b p := by
  by_cases h : p = q
  · subst h
    by_cases h1 : p.1 < b.length
    · by_cases h2 : p.2 < (b.getD p.1 []).length
      · exact Or.inl (cellAt_setCell_self h1 h2)
      · right
        unfold cellAt setCell
        rw [getD_set_self b _ [] h1]
        rw [getD_of_le _ p.2 "" (by rw [List.length_set]; omega),
          getD_of_le (b.getD p.1 []) p.2 "" (by omega)]
    · right
      unfold cellAt setCell
      have e1 : (List.set b p.1 ((b.getD p.1 []).set p.2 v)).getD p.1 [] = [] :=
        getD_of_le _ _ _ (by rw [List.length_set]; omega)
      rw [e1, getD_of_le b p.1 [] (by omega)]
  · exact Or.inr (cellAt_setCell_ne h)

/-! ### Decimal printing lemmas -/

theorem digitChar_isDigit : ∀ k, k < 10 → (Char.ofNat (48 + k)).isDigit = true := by decide

theorem natDigitsGo_digits : ∀ fuel n, ∀ c ∈ natDigitsGo fuel n, c.isDigit = true := by
  intro fuel
  induction fuel with
  | zero => intro n c hc; simp [natDigitsGo] at hc
  | succ fuel ih =>
    intro n c hc
    rw [natDigitsGo] at hc
    split at hc
    · next h =>
      simp only [List.mem_singleton] at hc
      subst hc
      exact digitChar_isDigit n h
    · next h =>
      rw [List.mem_append] at hc
      rcases hc with hc | hc
      · exact ih _ c hc
      · simp only [List.mem_singleton] at hc
        subst hc
        exact digitChar_isDigit _ (Nat.mod_lt _ (by omega))

theorem natDigits_digits (n : Nat) : ∀ c ∈ natDigits n, c.isDigit = true :=
  natDigitsGo_digits _ n

theorem natDigits_ne_nil (n : Nat) : natDigits n ≠ [] := by
  unfold natDigits natDigitsGo
  split <;> simp

theorem natToStr_ne_q (n : Nat) : natToStr n ≠ "?" := by
  intro h
  have hd : natDigits n = ['?'] := congrArg String.data h
  have := natDigits_digits n '?' (by rw [hd]; simp)
  exact absurd this (by decide)

theorem natToStr_ne_x (n : Nat) : natToStr n ≠ "x" := by
  intro h
  have hd : natDigits n = ['x'] := congrArg String.data h
  have := natDigits_digits n 'x' (by rw [hd]; simp)
  exact absurd this (by decide)

theorem str_isnumeric_natToStr (n : Nat) : str_isnumeric (natToStr n) = true := by
  unfold str_isnumeric natToStr
  rw [Bool.and_eq_true]
  refine ⟨?_, ?_⟩
  · rw [Bool.not_eq_true']
    rw [Bool.eq_false_iff]
    intro he
    rw [String.isEmpty_iff] at he
    exact natDigits_ne_nil n (congrArg String.data he)
  · rw [List.all_eq_true]
    intro c hc
    exact natDigits_digits n c (by simpa using hc)

theorem str_isnumeric_q : str_isnumeric "?" = false := by decide

theorem str_isnumeric_x : str_isnumeric "x" = false := by decide

theorem parseNat_natToStr : ∀ d : Nat, d ≤ 8 → parseNat (natToStr d) = d := by decide

/-! ### Step composition -/

theorem Step.refl (s : SState) : Step s s :=
  ⟨fun _ h => h, fun _ h => h, fun _ _ => rfl, id, fun _ hc => hc, fun _ h => h,
    fun _ h => h⟩

theorem Step.trans {s t u : SState} (h1 : Step s t) (h2 : Step t u) : Step s u where
  sub := fun p hp => h1.sub p (h2.sub p hp)
  noq := fun p hp => h1.noq p (h2.noq p hp)
  stable := fun p hp => by
    have hpt : p ∉ t.unknowns := fun hc => hp (h1.sub p hc)
    rw [h2.stable p hpt, h1.stable p hp]
  inv := fun hi => h2.inv (h1.inv hi)
  coh := fun hi hc => h2.coh (h1.inv hi) (h1.coh hi hc)
  fmono := fun p hp => h2.fmono p (h1.fmono p hp)
  omono := fun p hp => h2.omono p (h1.omono p hp)

/-! ### Single-resolution step lemmas -/

theorem flagStep_invW {s : SState} {q : Pos} (hq : q ∈ s.unknowns) (hinv : InvW s) :
    InvW { s with unknowns := s.unknowns.erase q, board := setCell s.board q flagTok,
                  nmines := s.nmines - 1, flagged := s.flagged ++ [q] } := by
  obtain ⟨hnd, hU, hF, hO⟩ := hinv
  have hq? : cellAt s.board q = "?" := hU q hq
  have hbounds := cellAt_bounds (b := s.board) (p := q) (by rw [hq?]; decide)
  refine ⟨hnd.erase q, ?_, ?_, ?_⟩
  · intro r hr
    rw [hnd.mem_erase_iff] at hr
    show cellAt (setCell s.board q flagTok) r = "?"
    rw [cellAt_setCell_ne hr.1]
    exact hU r hr.2
  · intro r hr
    rw [List.mem_append] at hr
    show cellAt (setCell s.board q flagTok) r = "x"
    rcases hr with hr | hr
    · have hrq : r ≠ q := by
        intro e; subst e
        rw [hF r hr] at hq?
        exact absurd hq? (by decide)
      rw [cellAt_setCell_ne hrq]
      exact hF r hr
    · simp only [List.mem_singleton] at hr
      subst hr
      exact cellAt_setCell_self hbounds.1 hbounds.2
  · intro r hr
    show str_isnumeric (cellAt (setCell s.board q flagTok) r) = true
    have hrq : r ≠ q := by
      intro e; subst e
      have hrnum := hO r hr
      rw [hq?] at hrnum
      exact absurd hrnum (by decide)
    rw [cellAt_setCell_ne hrq]
    exact hO r hr

theorem flagStep_coh {s : SState} {q : Pos} (hq : q ∈ s.unknowns) (hinv : InvW s)
    (hcoh : Coh2 s) :
    Coh2 { s with unknowns := s.unknowns.erase q, board := setCell s.board q flagTok,
                  nmines := s.nmines - 1, flagged := s.flagged ++ [q] } := by
  obtain ⟨hnd, hU, hF, hO⟩ := hinv
  have hq? : cellAt s.board q = "?" := hU q hq
  have hbounds := cellAt_bounds (b := s.board) (p := q) (by rw [hq?]; decide)
  intro p hp
  replace hp : cellAt (setCell s.board q flagTok) p = "?" := hp
  have hpq : p ≠ q := by
    intro e; subst e
    rw [cellAt_setCell_self hbounds.1 hbounds.2] at hp
    exact absurd hp (by decide)
  rw [cellAt_setCell_ne hpq] at hp
  show p ∈ s.unknowns.erase q
  rw [List.mem_erase_of_ne hpq]
  exact hcoh p hp

theorem openStep_invW {s : SState} {q : Pos} {k : Nat} (hq : q ∈ s.unknowns) (hinv : InvW s) :
    InvW { s with unknowns := s.unknowns.erase q, board := setCell s.board q (natToStr k),
                  opened := s.opened ++ [q] } := by
  obtain ⟨hnd, hU, hF, hO⟩ := hinv
  have hq? : cellAt s.board q = "?" := hU q hq
  have hbounds := cellAt_bounds (b := s.board) (p := q) (by rw [hq?]; decide)
  refine ⟨hnd.erase q, ?_, ?_, ?_⟩
  · intro r hr
    rw [hnd.mem_erase_iff] at hr
    show cellAt (setCell s.board q (natToStr k)) r = "?"
    rw [cellAt_setCell_ne hr.1]
    exact hU r hr.2
  · intro r hr
    show cellAt (setCell s.board q (natToStr k)) r = "x"
    have hrq : r ≠ q := by
      intro e; subst e
      rw [hF r hr] at hq?
      exact absurd hq? (by decide)
    rw [cellAt_setCell_ne hrq]
    exact hF r hr
  · intro r hr
    rw [List.mem_append] at hr
    show str_isnumeric (cellAt (setCell s.board q (natToStr k)) r) = true
    rcases hr with hr | hr
    · have hrq : r ≠ q := by
        intro e; subst e
        have hrnum := hO r hr
        rw [hq?] at hrnum
        exact absurd hrnum (by decide)
      rw [cellAt_setCell_ne hrq]
      exact hO r hr
    · simp only [List.mem_singleton] at hr
      subst hr
      rw [cellAt_setCell_self hbounds.1 hbounds.2]
      exact str_isnumeric_natToStr k

theorem openStep_coh {s : SState} {q : Pos} {k : Nat} (hq : q ∈ s.unknowns) (hinv : InvW s)
    (hcoh : Coh2 s) :
    Coh2 { s with unknowns := s.unknowns.erase q, board := setCell s.board q (natToStr k),
                  opened := s.opened ++ [q] } := by
  obtain ⟨hnd, hU, hF, hO⟩ := hinv
  have hq? : cellAt s.board q = "?" := hU q hq
  have hbounds := cellAt_bounds (b := s.board) (p := q) (by rw [hq?]; decide)
  intro p hp
  replace hp : cellAt (setCell s.board q (natToStr k)) p = "?" := hp
  have hpq : p ≠ q := by
    intro e; subst e
    rw [cellAt_setCell_self hbounds.1 hbounds.2] at hp
    exact absurd hp (natToStr_ne_q k)
  rw [cellAt_setCell_ne hpq] at hp
  show p ∈ s.unknowns.erase q
  rw [List.mem_erase_of_ne hpq]
  exact hcoh p hp

/-! ### flagOne / openOne lemmas -/

theorem flagOne_step (q : Pos) (s : SState) : Step s (flagOne q s) := by
  by_cases hq : q ∈ s.unknowns
  · unfold flagOne
    rw [if_pos hq]
    refine ⟨?_, ?_, ?_, ?_, ?_, ?_, ?_⟩
    · intro p hp
      exact List.mem_of_mem_erase hp
    · intro p hp
      rcases cellAt_setCell_or (b := s.board) (p := p) (q := q) (v := flagTok) with he | he
      · replace hp : cellAt (setCell s.board q flagTok) p = "?" := hp
        rw [hp] at he
        exact absurd he.symm (by decide)
      · replace hp : cellAt (setCell s.board q flagTok) p = "?" := hp
        rw [← he]
        exact hp
    · intro p hp
      have hpq : p ≠ q := fun e => hp (e ▸ hq)
      exact cellAt_setCell_ne hpq
    · exact flagStep_invW hq
    · exact fun hi hc => flagStep_coh hq hi hc
    · intro p hp
      show p ∈ s.flagged ++ [q]
      simp [hp]
    · exact fun p hp => hp
  · unfold flagOne
    rw [if_neg hq]
    exact Step.refl s

theorem flagOne_self {q : Pos} {s : SState} (hq : q ∈ s.unknowns) (hinv : InvW s) :
    cellAt (flagOne q s).board q = "x" ∧ q ∉ (flagOne q s).unknowns ∧
    q ∈ (flagOne q s).flagged := by
  obtain ⟨hnd, hU, hF, hO⟩ := hinv
  have hbounds := cellAt_bounds (b := s.board) (p := q) (by rw [hU q hq]; decide)
  unfold flagOne
  rw [if_pos hq]
  refine ⟨?_, ?_, ?_⟩
  · exact cellAt_setCell_self hbounds.1 hbounds.2
  · show q ∉ s.unknowns.erase q
    rw [hnd.mem_erase_iff]
    exact fun hcon => hcon.1 rfl
  · show q ∈ s.flagged ++ [q]
    simp

theorem flagOne_ne {q : Pos} {s : SState} {p : Pos} (hpq : p ≠ q) :
    (p ∈ (flagOne q s).unknowns ↔ p ∈ s.unknowns) ∧
    cellAt (flagOne q s).board p = cellAt s.board p := by
  unfold flagOne
  split
  · exact ⟨List.mem_erase_of_ne hpq, cellAt_setCell_ne hpq⟩
  · exact ⟨Iff.rfl, rfl⟩

theorem openOne_step {key : String} {q : Pos} {s t : SState}
    (h : openOne key q s = some t) : Step s t := by
  unfold openOne at h
  split at h
  · next hq =>
    split at h
    · simp at h
    · next k hk =>
      have ht := Option.some.inj h
      subst ht
      refine ⟨?_, ?_, ?_, ?_, ?_, ?_, ?_⟩
      · intro p hp
        exact List.mem_of_mem_erase hp
      · intro p hp
        rcases cellAt_setCell_or (b := s.board) (p := p) (q := q) (v := natToStr k)
          with he | he
        · replace hp : cellAt (setCell s.board q (natToStr k)) p = "?" := hp
          rw [hp] at he
          exact absurd he.symm (natToStr_ne_q k)
        · replace hp : cellAt (setCell s.board q (natToStr k)) p = "?" := hp
          rw [← he]
          exact hp
      · intro p hp
        have hpq : p ≠ q := fun e => hp (e ▸ hq)
        exact cellAt_setCell_ne hpq
      · exact openStep_invW hq
      · exact fun hi hc => openStep_coh hq hi hc
      · exact fun p hp => hp
      · intro p hp
        show p ∈ s.opened ++ [q]
        simp [hp]
  · have ht := Option.some.inj h
    subst ht
    exact Step.refl s

theorem openOne_self {key : String} {q : Pos} {s t : SState} (hq : q ∈ s.unknowns)
    (hinv : InvW s) (h : openOne key q s = some t) :
    str_isnumeric (cellAt t.board q) = true ∧ q ∉ t.unknowns ∧ q ∈ t.opened := by
  obtain ⟨hnd, hU, hF, hO⟩ := hinv
  have hbounds := cellAt_bounds (b := s.board) (p := q) (by rw [hU q hq]; decide)
  unfold openOne at h
  rw [if_pos hq] at h
  split at h
  · simp at h
  · next k hk =>
    have ht := Option.some.inj h
    subst ht
    refine ⟨?_, ?_, ?_⟩
    · show str_isnumeric (cellAt (setCell s.board q (natToStr k)) q) = true
      rw [cellAt_setCell_self hbounds.1 hbounds.2]
      exact str_isnumeric_natToStr k
    · show q ∉ s.unknowns.erase q
      rw [hnd.mem_erase_iff]
      exact fun hcon => hcon.1 rfl
    · show q ∈ s.opened ++ [q]
      simp

theorem openOne_ne {key : String} {q : Pos} {s t : SState} {p : Pos}
    (h : openOne key q s = some t) (hpq : p ≠ q) :
    (p ∈ t.unknowns ↔ p ∈ s.unknowns) ∧ cellAt t.board p = cellAt s.board p := by
  unfold openOne at h
  split at h
  · split at h
    · simp at h
    · have ht := Option.some.inj h
      subst ht
      exact ⟨List.mem_erase_of_ne hpq, cellAt_setCell_ne hpq⟩
  · have ht := Option.some.inj h
    subst ht
    exact ⟨Iff.rfl, rfl⟩

/-! ### flagCells / openCells lemmas -/

theorem flagCells_step : ∀ (ps : List Pos) (s : SState), Step s (flagCells ps s) := by
  intro ps
  induction ps with
  | nil => intro s; exact Step.refl s
  | cons q rest ih =>
    intro s
    show Step s (flagCells rest (flagOne q s))
    exact Step.trans (flagOne_step q s) (ih (flagOne q s))

theorem openCells_step {key : String} :
    ∀ (ps : List Pos) (s t : SState), openCells key ps s = some t → Step s t := by
  intro ps
  induction ps with
  | nil =>
    intro s t h
    have ht := Option.some.inj h
    subst ht
    exact Step.refl s
  | cons q rest ih =>
    intro s t h
    simp only [openCells] at h
    split at h
    · simp at h
    · next m hm => exact Step.trans (openOne_step hm) (ih m t h)

theorem flagCells_mem_flag :
    ∀ (ps : List Pos) (s : SState) (p : Pos), InvW s → p ∈ ps → p ∈ s.unknowns →
      cellAt (flagCells ps s).board p = "x" ∧ p ∉ (flagCells ps s).unknowns ∧
      p ∈ (flagCells ps s).flagged := by
  intro ps
  induction ps with
  | nil => intro s p _ hps; cases hps
  | cons q rest ih =>
    intro s p hinv hps hpu
    show _ ∧ _ ∧ _
    by_cases hpq : p = q
    · subst hpq
      have hself := flagOne_self hpu hinv
      have hstep := flagCells_step rest (flagOne p s)
      refine ⟨?_, ?_, ?_⟩
      · show cellAt (flagCells rest (flagOne p s)).board p = "x"
        rw [hstep.stable p hself.2.1]
        exact hself.1
      · exact fun hc => hself.2.1 (hstep.sub p hc)
      · exact hstep.fmono p hself.2.2
    · have hps' : p ∈ rest := by
        rcases hps with _ | hmem
        · exact absurd rfl hpq
        · assumption
      exact ih (flagOne q s) p ((flagOne_step q s).inv hinv) hps'
        ((flagOne_ne hpq).1.mpr hpu)

theorem flagCells_resolved :
    ∀ (ps : List Pos) (s : SState) (p : Pos), InvW s → p ∈ s.unknowns →
      p ∉ (flagCells ps s).unknowns →
      cellAt (flagCells ps s).board p = "x" ∧ p ∈ ps := by
  intro ps
  induction ps with
  | nil => intro s p _ hpu hc; exact absurd hpu hc
  | cons q rest ih =>
    intro s p hinv hpu hc
    by_cases hpq : p = q
    · subst hpq
      have h := flagCells_mem_flag (p :: rest) s p hinv (by simp) hpu
      exact ⟨h.1, by simp⟩
    · have hres := ih (flagOne q s) p ((flagOne_step q s).inv hinv)
        ((flagOne_ne hpq).1.mpr hpu) hc
      exact ⟨hres.1, List.mem_cons_of_mem _ hres.2⟩

theorem openCells_mem_open {key : String} :
    ∀ (ps : List Pos) (s t : SState) (p : Pos), InvW s → openCells key ps s = some t →
      p ∈ ps → p ∈ s.unknowns →
      str_isnumeric (cellAt t.board p) = true ∧ p ∉ t.unknowns ∧ p ∈ t.opened := by
  intro ps
  induction ps with
  | nil => intro s t p _ _ hps; cases hps
  | cons q rest ih =>
    intro s t p hinv h hps hpu
    simp only [openCells] at h
    split at h
    · simp at h
    · next m hm =>
      by_cases hpq : p = q
      · subst hpq
        have hself := openOne_self hpu hinv hm
        have hstep := openCells_step rest m t h
        refine ⟨?_, ?_, ?_⟩
        · rw [hstep.stable p hself.2.1]
          exact hself.1
        · exact fun hc => hself.2.1 (hstep.sub p hc)
        · exact hstep.omono p hself.2.2
      · have hps' : p ∈ rest := by
          rcases hps with _ | hmem
          · exact absurd rfl hpq
          · assumption
        exact ih m t p ((openOne_step hm).inv hinv) h hps' ((openOne_ne hm hpq).1.mpr hpu)

theorem openCells_resolved {key : String} :
    ∀ (ps : List Pos) (s t : SState) (p : Pos), InvW s → openCells key ps s = some t →
      p ∈ s.unknowns → p ∉ t.unknowns →
      str_isnumeric (cellAt t.board p) = true ∧ p ∈ ps := by
  intro ps
  induction ps with
  | nil =>
    intro s t p _ h hpu hc
    have ht := Option.some.inj h
    subst ht
    exact absurd hpu hc
  | cons q rest ih =>
    intro s t p hinv h hpu hc
    simp only [openCells] at h
    split at h
    · simp at h
    · next m hm =>
      by_cases hpq : p = q
      · subst hpq
        have hmem := @openCells_mem_open key (p :: rest) s t p hinv
          (by simp only [openCells]; rw [hm]; exact h) (by simp) hpu
        exact ⟨hmem.1, by simp⟩
      · have hres := ih m t p ((openOne_step hm).inv hinv) h
          ((openOne_ne hm hpq).1.mpr hpu) hc
        exact ⟨hres.1, List.mem_cons_of_mem _ hres.2⟩

/-! ### basic_analysis lemmas -/

theorem basicStep_step {key : String} {rc : Pos} {s t : SState}
    (h : basicStep key rc s = some t) : Step s t := by
  simp only [basicStep] at h
  split at h
  · exact openCells_step _ s t h
  · split at h
    · have ht := Option.some.inj h
      subst ht
      exact flagCells_step _ s
    · have ht := Option.some.inj h
      subst ht
      exact Step.refl s

theorem basic_analysis_step {key : String} :
    ∀ (fr : List Pos) (s t : SState), basic_analysis key fr s = some t → Step s t := by
  intro fr
  induction fr with
  | nil =>
    intro s t h
    have ht := Option.some.inj h
    subst ht
    exact Step.refl s
  | cons rc rest ih =>
    intro s t h
    simp only [basic_analysis] at h
    split at h
    · simp at h
    · next m hm => exact Step.trans (basicStep_step hm) (ih m t h)

theorem basic_analysis_append {key : String} :
    ∀ (l1 l2 : List Pos) (s : SState),
      basic_analysis key (l1 ++ l2) s =
        (basic_analysis key l1 s).bind (fun m => basic_analysis key l2 m) := by
  intro l1
  induction l1 with
  | nil => intro l2 s; rfl
  | cons rc rest ih =>
    intro l2 s
    simp only [List.cons_append, basic_analysis]
    cases basicStep key rc s with
    | none => rfl
    | some m => exact ih l2 m

theorem basicStep_flagAll {key : String} {rc : Pos} {s t : SState}
    (hinv : InvW s) (hcoh : Coh2 s)
    (heq : parseNat (cellAt s.board rc) =
      ((get_neighbors rc.1 rc.2 s.board).filter (fun p => cellAt s.board p = "x")).length +
      ((get_neighbors rc.1 rc.2 s.board).filter (fun p => cellAt s.board p = "?")).length)
    (h : basicStep key rc s = some t) :
    ∀ p ∈ (get_neighbors rc.1 rc.2 s.board).filter (fun p => cellAt s.board p = "?"),
      cellAt t.board p = "x" ∧ p ∉ t.unknowns := by
  intro p hp
  have hpu : p ∈ s.unknowns := hcoh p (of_decide_eq_true (List.mem_filter.mp hp).2)
  simp only [basicStep] at h
  by_cases hle : parseNat (cellAt s.board rc) ≤
      ((get_neighbors rc.1 rc.2 s.board).filter (fun p => cellAt s.board p = "x")).length
  · exfalso
    have hlen :
        ((get_neighbors rc.1 rc.2 s.board).filter
          (fun p => cellAt s.board p = "?")).length = 0 := by omega
    rw [List.length_eq_zero] at hlen
    rw [hlen] at hp
    cases hp
  · rw [if_neg hle, if_pos heq] at h
    have ht := Option.some.inj h
    subst ht
    have hres := flagCells_mem_flag _ s p hinv hp hpu
    exact ⟨hres.1, hres.2.1⟩

theorem basicStep_openAll {key : String} {rc : Pos} {s t : SState}
    (hinv : InvW s) (hcoh : Coh2 s)
    (hle : parseNat (cellAt s.board rc) ≤
      ((get_neighbors rc.1 rc.2 s.board).filter (fun p => cellAt s.board p = "x")).length)
    (h : basicStep key rc s = some t) :
    ∀ p ∈ (get_neighbors rc.1 rc.2 s.board).filter (fun p => cellAt s.board p = "?"),
      str_isnumeric (cellAt t.board p) = true ∧ p ∉ t.unknowns := by
  intro p hp
  have hpu : p ∈ s.unknowns := hcoh p (of_decide_eq_true (List.mem_filter.mp hp).2)
  simp only [basicStep] at h
  rw [if_pos hle] at h
  have hres := openCells_mem_open _ s t p hinv h hp hpu
  exact ⟨hres.1, hres.2.1⟩

/-! ### applyGroups / heuristic step lemmas -/

theorem applyGroups_step {key : String} :
    ∀ (ng : ZoneStore) (s t : SState), applyGroups key ng s = some t → Step s t := by
  intro ng
  induction ng with
  | nil =>
    intro s t h
    have ht := Option.some.inj h
    subst ht
    exact Step.refl s
  | cons e rest ih =>
    intro s t h
    obtain ⟨z, c⟩ := e
    simp only [applyGroups] at h
    split at h
    · exact Step.trans (flagCells_step _ s) (ih _ t h)
    · split at h
      · split at h
        · simp at h
        · next m hm => exact Step.trans (openCells_step _ s m hm) (ih m t h)
      · exact ih s t h

theorem inclusive_step {key : String} {frontier : List Pos} {s t : SState}
    (h : inclusive_deduction key frontier s = some t) : Step s t := by
  unfold inclusive_deduction at h
  exact applyGroups_step _ s t h

theorem exGo_step : ∀ (pl : List ((Zone × Int) × (Zone × Int))) (s : SState),
    Step s (exGo pl s) := by
  intro pl
  induction pl with
  | nil => intro s; exact Step.refl s
  | cons pr rest ih =>
    intro s
    obtain ⟨⟨g, gn⟩, o, on_⟩ := pr
    simp only [exGo]
    split
    · split
      · split
        · exact flagCells_step _ s
        · split
          · exact flagCells_step _ s
          · exact ih s
      · exact ih s
    · exact ih s

theorem exclusive_step (frontier : List Pos) (s : SState) :
    Step s (exclusive_deduction frontier s) := by
  unfold exclusive_deduction
  exact exGo_step _ s

theorem runHeuristic_step {key : String} {frontier : List Pos} {idx : Nat} {s t : SState}
    (h : runHeuristic key frontier idx s = some t) : Step s t := by
  cases idx with
  | zero => exact basic_analysis_step _ s t h
  | succ n =>
    cases n with
    | zero =>
      simp only [runHeuristic] at h
      exact inclusive_step h
    | succ n2 =>
      cases n2 with
      | zero =>
        simp only [runHeuristic] at h
        have ht := Option.some.inj h
        subst ht
        exact exclusive_step frontier s
      | succ n3 =>
        simp only [runHeuristic] at h
        have ht := Option.some.inj h
        subst ht
        exact Step.refl s

/-! ### Solver loop lemmas -/

theorem solveLoop_succ_eq (key : String) (fuel idx : Nat) (fr : List Pos) (nu : Nat)
    (s : SState) :
    solveLoop key (fuel + 1) idx fr nu s =
      if idx < 4 then
        match runHeuristic key (if idx = 0 then computeFrontier s else fr) idx s with
        | none => none
        | some t =>
          if t.unknowns.length < (if idx = 0 then s.unknowns.length else nu) then
            if t.unknowns = [] then some (t, get_board_str t.board)
            else solveLoop key fuel 0 (if idx = 0 then computeFrontier s else fr)
              (if idx = 0 then s.unknowns.length else nu) t
          else solveLoop key fuel (idx + 1) (if idx = 0 then computeFrontier s else fr)
            (if idx = 0 then s.unknowns.length else nu) t
      else some (s, "?") := rfl

theorem solveLoop_spec {key : String} :
    ∀ (fuel idx : Nat) (fr : List Pos) (nu : Nat) (s t : SState) (r : String),
      solveLoop key fuel idx fr nu s = some (t, r) →
      Step s t ∧ (r ≠ "?" → t.unknowns = []) := by
  intro fuel
  induction fuel with
  | zero =>
    intro idx fr nu s t r h
    simp only [solveLoop] at h
    have ht := Option.some.inj h
    injection ht with h1 h2
    subst h1
    subst h2
    exact ⟨Step.refl s, fun hr => absurd rfl hr⟩
  | succ fuel ih =>
    intro idx fr nu s t r h
    rw [solveLoop_succ_eq] at h
    by_cases h4 : idx < 4
    · rw [if_pos h4] at h
      generalize hfr2 : (if idx = 0 then computeFrontier s else fr) = fr2 at h
      generalize hnu2 : (if idx = 0 then s.unknowns.length else nu) = nu2 at h
      split at h
      · simp at h
      · next m hm =>
        by_cases hlt : m.unknowns.length < nu2
        · rw [if_pos hlt] at h
          by_cases hemp : m.unknowns = []
          · rw [if_pos hemp] at h
            have ht := Option.some.inj h
            injection ht with h1 h2
            subst h1
            subst h2
            exact ⟨runHeuristic_step hm, fun _ => hemp⟩
          · rw [if_neg hemp] at h
            have hres := ih 0 fr2 nu2 m t r h
            exact ⟨Step.trans (runHeuristic_step hm) hres.1, hres.2⟩
        · rw [if_neg hlt] at h
          have hres := ih (idx + 1) fr2 nu2 m t r h
          exact ⟨Step.trans (runHeuristic_step hm) hres.1, hres.2⟩
    · rw [if_neg h4] at h
      have ht := Option.some.inj h
      injection ht with h1 h2
      subst h1
      subst h2
      exact ⟨Step.refl s, fun hr => absurd rfl hr⟩

theorem solveState_spec {key mapStr : String} {n : Int} {t : SState} {r : String}
    (h : solveState key mapStr n = some (t, r)) :
    Step ⟨parseBoard mapStr, initUnknowns (parseBoard mapStr), n, [], []⟩ t ∧
      (r ≠ "?" → t.unknowns = []) := by
  simp only [solveState] at h
  exact solveLoop_spec _ _ _ _ _ t r h

/-! ### Initial state lemmas -/

theorem mem_initUnknowns {b : Board} {p : Pos} :
    p ∈ initUnknowns b ↔
      p.1 < b.length ∧ p.2 < (b.headD []).length ∧ cellAt b p = "?" := by
  unfold initUnknowns
  rw [List.mem_flatMap]
  constructor
  · rintro ⟨r, hr, hmem⟩
    rw [List.mem_filterMap] at hmem
    obtain ⟨c, hc, he⟩ := hmem
    rw [List.mem_range] at hr
    rw [List.mem_range] at hc
    by_cases hq : cellAt b (r, c) = "?"
    · rw [if_pos hq] at he
      have hpe := Option.some.inj he
      subst hpe
      exact ⟨hr, hc, hq⟩
    · rw [if_neg hq] at he
      cases he
  · rintro ⟨h1, h2, h3⟩
    refine ⟨p.1, List.mem_range.mpr h1, ?_⟩
    rw [List.mem_filterMap]
    refine ⟨p.2, List.mem_range.mpr h2, ?_⟩
    rw [if_pos h3]

theorem initUnknowns_nodup (b : Board) : (initUnknowns b).Nodup := by
  unfold initUnknowns
  have hrow : ∀ (r : Nat) (p : Pos),
      p ∈ (List.range (b.headD []).length).filterMap
        (fun c => if cellAt b (r, c) = "?" then some (r, c) else none) → p.1 = r := by
    intro r p hp
    rw [List.mem_filterMap] at hp
    obtain ⟨c, _, he⟩ := hp
    by_cases hq : cellAt b (r, c) = "?"
    · rw [if_pos hq] at he
      have hpe := Option.some.inj he
      subst hpe
      rfl
    · rw [if_neg hq] at he
      cases he
  rw [List.nodup_flatMap]
  constructor
  · intro r _
    refine List.Nodup.filterMap ?_ (List.nodup_range _)
    intro a a' q hq hq'
    by_cases h1 : cellAt b (r, a) = "?"
    · rw [if_pos h1] at hq
      by_cases h2 : cellAt b (r, a') = "?"
      · rw [if_pos h2] at hq'
        have e1 := Option.some.inj hq
        have e2 := Option.some.inj hq'
        rw [← e2] at e1
        exact congrArg Prod.snd e1
      · rw [if_neg h2] at hq'
        cases hq'
    · rw [if_neg h1] at hq
      cases hq
  · have hpw : (List.range b.length).Pairwise (· ≠ ·) :=
      List.Pairwise.imp Nat.ne_of_lt (List.pairwise_lt_range _)
    refine hpw.imp ?_
    intro r r' hne
    intro p hp hp'
    exact hne ((hrow r p hp).symm.trans (hrow r' p hp'))

theorem initInvW (b : Board) (n : Int) : InvW ⟨b, initUnknowns b, n, [], []⟩ := by
  refine ⟨initUnknowns_nodup b, ?_, ?_, ?_⟩
  · intro p hp
    exact (mem_initUnknowns.mp hp).2.2
  · intro p hp
    cases hp
  · intro p hp
    cases hp

theorem initCoh2 {b : Board} (hrect : Rectangular b) (n : Int) :
    Coh2 ⟨b, initUnknowns b, n, [], []⟩ := by
  intro p hp
  replace hp : cellAt b p = "?" := hp
  have hb := cellAt_bounds (b := b) (p := p) (by rw [hp]; decide)
  have hrowmem : b.getD p.1 [] ∈ b := by
    rw [List.getD_eq_getElem b [] hb.1]
    exact List.getElem_mem hb.1
  refine mem_initUnknowns.mpr ⟨hb.1, ?_, hp⟩
  rw [← hrect _ hrowmem]
  exact hb.2

/-! ### Zone store dictionary lemmas -/

theorem dictInsert_isKey_self (d : ZoneStore) (k : Zone) (v : Int) :
    isKey (dictInsert d k v) k := by
  unfold dictInsert
  split
  · next hany =>
    rw [List.any_eq_true] at hany
    obtain ⟨e, he, hek⟩ := hany
    refine ⟨v, ?_⟩
    rw [List.mem_map]
    exact ⟨e, he, by rw [if_pos (of_decide_eq_true hek)]⟩
  · exact ⟨v, by simp⟩

theorem dictInsert_isKey_mono {d : ZoneStore} {k2 : Zone} (h : isKey d k2) (k : Zone) (v : Int) :
    isKey (dictInsert d k v) k2 := by
  obtain ⟨w, hw⟩ := h
  unfold dictInsert
  split
  · by_cases hkk : k2 = k
    · subst hkk
      refine ⟨v, ?_⟩
      rw [List.mem_map]
      exact ⟨(k2, w), hw, by rw [if_pos rfl]⟩
    · refine ⟨w, ?_⟩
      rw [List.mem_map]
      exact ⟨(k2, w), hw, by rw [if_neg hkk]⟩
  · exact ⟨w, List.mem_append_left _ hw⟩

theorem dictInsert_exact {M : Finset Pos} {d : ZoneStore} {k : Zone} {v : Int}
    (hd : ExactStore M d) (hv : v = ((k ∩ M).card : Int)) :
    ExactStore M (dictInsert d k v) := by
  intro e he
  unfold dictInsert at he
  split at he
  · rw [List.mem_map] at he
    obtain ⟨e0, he0, heq⟩ := he
    by_cases hk : e0.1 = k
    · rw [if_pos hk] at heq
      rw [← heq]
      exact hv
    · rw [if_neg hk] at heq
      rw [← heq]
      exact hd e0 he0
  · rw [List.mem_append] at he
    rcases he with he | he
    · exact hd e he
    · simp only [List.mem_singleton] at he
      rw [he]
      exact hv

theorem dictInsert_sub {u : List Pos} {d : ZoneStore} {k : Zone} {v : Int}
    (hd : StoreSub u d) (hk : ∀ p ∈ k, p ∈ u) : StoreSub u (dictInsert d k v) := by
  intro e he
  unfold dictInsert at he
  split at he
  · rw [List.mem_map] at he
    obtain ⟨e0, he0, heq⟩ := he
    by_cases hk0 : e0.1 = k
    · rw [if_pos hk0] at heq
      rw [← heq]
      exact hk
    · rw [if_neg hk0] at heq
      rw [← heq]
      exact hd e0 he0
  · rw [List.mem_append] at he
    rcases he with he | he
    · exact hd e he
    · simp only [List.mem_singleton] at he
      rw [he]
      exact hk

theorem dictFind?_exact {M : Finset Pos} :
    ∀ (d : ZoneStore) (k : Zone), ExactStore M d → isKey d k →
      dictFind? d k = some ((k ∩ M).card : Int) := by
  intro d
  induction d with
  | nil =>
    intro k _ hk
    obtain ⟨v, hv⟩ := hk
    cases hv
  | cons e rest ih =>
    intro k hd hk
    unfold dictFind?
    by_cases he : e.1 = k
    · rw [List.find?_cons_of_pos _ (by simpa using he)]
      have hval := hd e (by simp)
      show some e.2 = _
      rw [hval, he]
    · rw [List.find?_cons_of_neg _ (by simpa using he)]
      obtain ⟨v, hv⟩ := hk
      rcases List.mem_cons.mp hv with hv | hv
      · exact absurd (congrArg Prod.fst hv.symm) he
      · exact ih k (fun e2 he2 => hd e2 (List.mem_cons_of_mem _ he2)) ⟨v, hv⟩

theorem dictFind_exact {M : Finset Pos} {d : ZoneStore} {k : Zone}
    (hd : ExactStore M d) (hk : isKey d k) :
    dictFind d k = ((k ∩ M).card : Int) := by
  unfold dictFind
  rw [dictFind?_exact d k hd hk]
  rfl

theorem dictFind?_insert_self : ∀ (d : ZoneStore) (k : Zone) (v : Int),
    dictFind? (dictInsert d k v) k = some v := by
  intro d k v
  unfold dictInsert
  split
  · next hany =>
    unfold dictFind?
    revert hany
    induction d with
    | nil => intro hany; simp at hany
    | cons e rest ih =>
      intro hany
      simp only [List.map_cons]
      by_cases he : e.1 = k
      · rw [if_pos he]
        rw [List.find?_cons_of_pos _ (by simp)]
        rfl
      · rw [if_neg he]
        rw [List.find?_cons_of_neg _ (by simpa using he)]
        apply ih
        simp only [List.any_cons, Bool.or_eq_true] at hany
        rcases hany with hany | hany
        · exact absurd (of_decide_eq_true hany) he
        · exact hany
  · next hany =>
    unfold dictFind?
    induction d with
    | nil =>
      simp only [List.nil_append]
      rw [List.find?_cons_of_pos _ (by simp)]
      rfl
    | cons e rest ih =>
      have hek : ¬(e.1 = k) := by
        intro hc
        exact hany (by simp [List.any_cons, hc])
      simp only [List.cons_append]
      rw [List.find?_cons_of_neg _ (by simpa using hek)]
      apply ih
      intro hc
      exact hany (by simp only [List.any_cons, Bool.or_eq_true]; exact Or.inr hc)

theorem dictFind?_map_ne {k k2 : Zone} {v : Int} (hne : k2 ≠ k) :
    ∀ (d : ZoneStore),
      dictFind? (d.map (fun e => if e.1 = k2 then (k2, v) else e)) k = dictFind? d k := by
  intro d
  induction d with
  | nil => rfl
  | cons e rest ih =>
    unfold dictFind? at ih ⊢
    simp only [List.map_cons]
    by_cases he : e.1 = k2
    · have hek : ¬(e.1 = k) := fun hc => hne (he.symm.trans hc)
      rw [if_pos he]
      rw [List.find?_cons_of_neg _ (by simpa using hne)]
      rw [List.find?_cons_of_neg _ (by simpa using hek)]
      exact ih
    · rw [if_neg he]
      by_cases hek : e.1 = k
      · rw [List.find?_cons_of_pos _ (by simpa using hek),
          List.find?_cons_of_pos _ (by simpa using hek)]
      · rw [List.find?_cons_of_neg _ (by simpa using hek),
          List.find?_cons_of_neg _ (by simpa using hek)]
        exact ih

theorem dictFind?_append_ne {k k2 : Zone} {v : Int} (hne : k2 ≠ k) :
    ∀ (d : ZoneStore), dictFind? (d ++ [(k2, v)]) k = dictFind? d k := by
  intro d
  induction d with
  | nil =>
    unfold dictFind?
    simp only [List.nil_append]
    rw [List.find?_cons_of_neg _ (by simpa using hne)]
  | cons e rest ih =>
    unfold dictFind? at ih ⊢
    simp only [List.cons_append]
    by_cases hek : e.1 = k
    · rw [List.find?_cons_of_pos _ (by simpa using hek),
        List.find?_cons_of_pos _ (by simpa using hek)]
    · rw [List.find?_cons_of_neg _ (by simpa using hek),
        List.find?_cons_of_neg _ (by simpa using hek)]
      exact ih

theorem dictFind?_insert_ne (d : ZoneStore) (k k2 : Zone) (v : Int) (hne : k2 ≠ k) :
    dictFind? (dictInsert d k2 v) k = dictFind? d k := by
  unfold dictInsert
  split
  · exact dictFind?_map_ne hne d
  · exact dictFind?_append_ne hne d

/-! ### Pair enumeration lemmas -/

theorem pairsOf_mem {g : ZoneStore} :
    ∀ pr ∈ pairsOf g, pr.1 ∈ g ∧ pr.2 ∈ g := by
  intro pr hpr
  unfold pairsOf at hpr
  rw [List.mem_flatMap] at hpr
  obtain ⟨x, hx, hpr⟩ := hpr
  rw [List.mem_map] at hpr
  obtain ⟨y, hy, he⟩ := hpr
  rw [← he]
  exact ⟨hx, hy⟩

theorem pairsOf_mem_intro {g : ZoneStore} {x y : Zone × Int} (hx : x ∈ g) (hy : y ∈ g) :
    (x, y) ∈ pairsOf g := by
  unfold pairsOf
  rw [List.mem_flatMap]
  exact ⟨x, hx, List.mem_map.mpr ⟨y, hy, rfl⟩⟩

theorem childPairs_mem {children : List Zone} :
    ∀ pr ∈ childPairs children, pr.1 ∈ children ∧ pr.2 ∈ children := by
  intro pr hpr
  unfold childPairs at hpr
  rw [List.mem_flatMap] at hpr
  obtain ⟨x, hx, hpr⟩ := hpr
  rw [List.mem_map] at hpr
  obtain ⟨y, hy, he⟩ := hpr
  rw [← he]
  exact ⟨hx, hy⟩

/-! ### Zone construction lemmas -/

theorem zoneKey_sub {b : Board} {u : List Pos} {pos : Pos} :
    ∀ p ∈ zoneKey b u pos, p ∈ u := by
  intro p hp
  unfold zoneKey at hp
  rw [List.mem_toFinset] at hp
  exact of_decide_eq_true (List.mem_filter.mp hp).2

theorem get_groups_go_sub {b : Board} {u : List Pos} :
    ∀ (fr : List Pos) (acc : ZoneStore), StoreSub u acc →
      StoreSub u (fr.foldl
        (fun acc pos => dictInsert acc (zoneKey b u pos) (count_remaining_mines pos b)) acc) := by
  intro fr
  induction fr with
  | nil => intro acc h; exact h
  | cons pos rest ih =>
    intro acc h
    exact ih _ (dictInsert_sub h zoneKey_sub)

theorem get_groups_sub (b : Board) (frontier : List Pos) (u : List Pos) :
    StoreSub u (get_groups b frontier u) := by
  unfold get_groups
  exact get_groups_go_sub frontier [] (fun e he => absurd he (List.not_mem_nil e))

theorem get_groups_preserve {b : Board} {u : List Pos} {k : Zone} {v : Int} :
    ∀ (fr : List Pos) (acc : ZoneStore),
      (∀ q ∈ fr, zoneKey b u q ≠ k) → dictFind? acc k = some v →
      dictFind? (fr.foldl
        (fun acc pos => dictInsert acc (zoneKey b u pos) (count_remaining_mines pos b)) acc) k =
        some v := by
  intro fr
  induction fr with
  | nil => intro acc _ h; exact h
  | cons pos rest ih =>
    intro acc hfr h
    refine ih _ (fun q hq => hfr q (List.mem_cons_of_mem _ hq)) ?_
    rw [dictFind?_insert_ne _ _ _ _ (hfr pos (by simp))]
    exact h

/-! ### Neighbor list lemmas -/

theorem get_neighbors_nodup (r c : Nat) (b : Board) : (get_neighbors r c b).Nodup := by
  unfold get_neighbors
  refine List.Nodup.filterMap ?_ (by decide)
  rintro ⟨a1, a2⟩ ⟨a1', a2'⟩ q hq hq'
  rw [Option.mem_def] at hq hq'
  split at hq
  · next hcond =>
    split at hq'
    · next hcond' =>
      have e1 := Option.some.inj hq
      have e2 := Option.some.inj hq'
      rw [← e2] at e1
      injection e1 with f1 f2
      dsimp only at hcond hcond' f1 f2
      have h1 : a1 = a1' := by omega
      have h2 : a2 = a2' := by omega
      rw [h1, h2]
    · cases hq'
  · cases hq

/-! ### Finset counting lemmas -/

theorem card_inter_sdiff {A B M : Finset Pos} (hAB : A ⊆ B) :
    (((B \ A) ∩ M).card : Int) = ((B ∩ M).card : Int) - ((A ∩ M).card : Int) := by
  have hdm : (B \ A) ∩ M = (B ∩ M) \ (A ∩ M) := by
    ext x
    simp only [Finset.mem_sdiff, Finset.mem_inter]
    constructor
    · rintro ⟨⟨hB, hA⟩, hM⟩
      exact ⟨⟨hB, hM⟩, fun hc => hA hc.1⟩
    · rintro ⟨⟨hB, hM⟩, hc⟩
      exact ⟨⟨hB, fun hA => hc ⟨hA, hM⟩⟩, hM⟩
  have hsub : A ∩ M ⊆ B ∩ M := Finset.inter_subset_inter hAB (Finset.Subset.refl M)
  have hle := Finset.card_le_card hsub
  rw [hdm, Finset.card_sdiff hsub]
  omega

theorem card_sdiff_sdiff {P C OC M : Finset Pos} (hC : C ⊆ P) (hOC : OC ⊆ P)
    (hdisj : C ∩ OC = ∅) :
    ((((P \ C) \ OC) ∩ M).card : Int) =
      ((P ∩ M).card : Int) - ((C ∩ M).card : Int) - ((OC ∩ M).card : Int) := by
  have hOC2 : OC ⊆ P \ C := by
    intro x hx
    rw [Finset.mem_sdiff]
    refine ⟨hOC hx, fun hc => ?_⟩
    have : x ∈ C ∩ OC := Finset.mem_inter.mpr ⟨hc, hx⟩
    rw [hdisj] at this
    cases this
  rw [card_inter_sdiff hOC2, card_inter_sdiff hC]

/-! ### Parents bookkeeping lemmas -/

theorem parok_mono {groups ng ng2 : ZoneStore} {par : Parents}
    (h : ParOK groups ng par) (hmono : ∀ k, isKey ng k → isKey ng2 k) :
    ParOK groups ng2 par :=
  fun pe hpe =>
    ⟨(h pe hpe).1, fun c hc => ⟨hmono c ((h pe hpe).2 c hc).1, ((h pe hpe).2 c hc).2⟩⟩

theorem parAdd_parok {groups ng : ZoneStore} {par : Parents} {k v : Zone}
    (hpar : ParOK groups ng par) (hk : isKey groups k) (hv : isKey ng v) (hvk : v ⊆ k) :
    ParOK groups ng (parAdd par k v) := by
  intro pe hpe
  unfold parAdd at hpe
  split at hpe
  · rw [List.mem_map] at hpe
    obtain ⟨pe0, hpe0, heq⟩ := hpe
    by_cases hp0 : pe0.1 = k
    · rw [if_pos hp0] at heq
      have h0 := hpar pe0 hpe0
      rw [← heq]
      refine ⟨hk, ?_⟩
      intro c hc
      show isKey ng c ∧ c ⊆ k
      by_cases hvmem : v ∈ pe0.2
      · rw [if_pos hvmem] at hc
        have := h0.2 c hc
        exact ⟨this.1, hp0 ▸ this.2⟩
      · rw [if_neg hvmem] at hc
        rcases List.mem_append.mp hc with hc | hc
        · have := h0.2 c hc
          exact ⟨this.1, hp0 ▸ this.2⟩
        · simp only [List.mem_singleton] at hc
          rw [hc]
          exact ⟨hv, hvk⟩
    · rw [if_neg hp0] at heq
      rw [← heq]
      exact hpar pe0 hpe0
  · rcases List.mem_append.mp hpe with hpe | hpe
    · exact hpar pe hpe
    · simp only [List.mem_singleton] at hpe
      rw [hpe]
      refine ⟨hk, ?_⟩
      intro c hc
      simp only [List.mem_singleton] at hc
      rw [hc]
      exact ⟨hv, hvk⟩

/-! ### phase1 lemmas -/

theorem phase1_key_mono : ∀ (pl : List ((Zone × Int) × (Zone × Int))) (ng : ZoneStore)
    (par : Parents) (k : Zone), isKey ng k → isKey (phase1 pl ng par).1 k := by
  intro pl
  induction pl with
  | nil => intro ng par k h; exact h
  | cons pr rest ih =>
    intro ng par k h
    obtain ⟨⟨g, gn⟩, o, on_⟩ := pr
    simp only [phase1]
    split
    · exact ih _ _ k (dictInsert_isKey_mono (dictInsert_isKey_mono h _ _) _ _)
    · exact ih _ _ k h

theorem phase1_spec {M : Finset Pos} {u : List Pos} {groups : ZoneStore}
    (hgex : ExactStore M groups) (hgsub : StoreSub u groups) :
    ∀ (pl : List ((Zone × Int) × (Zone × Int))) (ng : ZoneStore) (par : Parents),
      (∀ pr ∈ pl, pr.1 ∈ groups ∧ pr.2 ∈ groups) →
      ExactStore M ng → StoreSub u ng → ParOK groups ng par →
      ExactStore M (phase1 pl ng par).1 ∧ StoreSub u (phase1 pl ng par).1 ∧
      ParOK groups (phase1 pl ng par).1 (phase1 pl ng par).2 := by
  intro pl
  induction pl with
  | nil => intro ng par _ hex hsub hpar; exact ⟨hex, hsub, hpar⟩
  | cons pr rest ih =>
    intro ng par hpl hex hsub hpar
    obtain ⟨⟨g, gn⟩, o, on_⟩ := pr
    have hg : (g, gn) ∈ groups := (hpl ((g, gn), (o, on_)) (by simp)).1
    have ho : (o, on_) ∈ groups := (hpl ((g, gn), (o, on_)) (by simp)).2
    have hpl2 : ∀ pr ∈ rest, pr.1 ∈ groups ∧ pr.2 ∈ groups :=
      fun pr hpr => hpl pr (List.mem_cons_of_mem _ hpr)
    simp only [phase1]
    split
    · next hss =>
      have hgn : gn = ((g ∩ M).card : Int) := hgex _ hg
      have hon : on_ = ((o ∩ M).card : Int) := hgex _ ho
      have hsame : g ∩ o = g := Finset.inter_eq_left.mpr hss.1
      have hv1 : gn = (((g ∩ o) ∩ M).card : Int) := by rw [hsame]; exact hgn
      have hv2 : on_ - gn = (((o \ g) ∩ M).card : Int) := by
        rw [card_inter_sdiff hss.1, ← hgn, ← hon]
      have hex2 : ExactStore M (dictInsert (dictInsert ng (g ∩ o) gn) (o \ g) (on_ - gn)) :=
        dictInsert_exact (dictInsert_exact hex hv1) hv2
      have hs1 : ∀ p ∈ g ∩ o, p ∈ u :=
        fun p hp => hgsub _ hg p (Finset.mem_of_mem_inter_left hp)
      have hs2 : ∀ p ∈ o \ g, p ∈ u :=
        fun p hp => hgsub _ ho p (Finset.mem_sdiff.mp hp).1
      have hsub2 : StoreSub u (dictInsert (dictInsert ng (g ∩ o) gn) (o \ g) (on_ - gn)) :=
        dictInsert_sub (dictInsert_sub hsub hs1) hs2
      have hpar2 : ParOK groups (dictInsert (dictInsert ng (g ∩ o) gn) (o \ g) (on_ - gn))
          (parAdd (parAdd par o (g ∩ o)) o (o \ g)) :=
        parAdd_parok
          (parAdd_parok
            (parok_mono hpar
              (fun k hk => dictInsert_isKey_mono (dictInsert_isKey_mono hk _ _) _ _))
            ⟨on_, ho⟩
            (dictInsert_isKey_mono (dictInsert_isKey_self ng (g ∩ o) gn) _ _)
            Finset.inter_subset_right)
          ⟨on_, ho⟩
          (dictInsert_isKey_self _ _ _)
          Finset.sdiff_subset
      exact ih _ _ hpl2 hex2 hsub2 hpar2
    · exact ih _ _ hpl2 hex hsub hpar

theorem phase1_creates : ∀ (pl : List ((Zone × Int) × (Zone × Int))) (ng : ZoneStore)
    (par : Parents) (A B : Zone) (a b : Int),
    ((A, a), (B, b)) ∈ pl → A ⊆ B → A ≠ B →
    isKey (phase1 pl ng par).1 (B \ A) := by
  intro pl
  induction pl with
  | nil => intro ng par A B a b h; cases h
  | cons pr rest ih =>
    intro ng par A B a b hmem hAB hne
    obtain ⟨⟨g, gn⟩, o, on_⟩ := pr
    rcases List.mem_cons.mp hmem with heq | hrest
    · simp only [Prod.mk.injEq] at heq
      obtain ⟨⟨hA, ha⟩, hB, hb⟩ := heq
      subst hA
      subst hB
      simp only [phase1]
      rw [if_pos ⟨hAB, hne⟩]
      apply phase1_key_mono
      exact dictInsert_isKey_self _ _ _
    · simp only [phase1]
      split
      · exact ih _ _ _ _ _ _ hrest hAB hne
      · exact ih _ _ _ _ _ _ hrest hAB hne

/-! ### phase2 lemmas -/

theorem phase2Step_key_mono {groups : ZoneStore} {parent : Zone} :
    ∀ (cp : List (Zone × Zone)) (ng : ZoneStore) (k : Zone), isKey ng k →
      isKey (phase2Step groups parent cp ng) k := by
  intro cp
  induction cp with
  | nil => intro ng k h; exact h
  | cons pr rest ih =>
    intro ng k h
    obtain ⟨c, oc⟩ := pr
    simp only [phase2Step]
    split
    · split
      · exact ih _ k (dictInsert_isKey_mono h _ _)
      · exact ih _ k h
    · exact ih _ k h

theorem phase2Step_spec {M : Finset Pos} {u : List Pos} {groups : ZoneStore}
    (hgex : ExactStore M groups) (hgsub : StoreSub u groups) {parent : Zone}
    (hpk : isKey groups parent) :
    ∀ (cp : List (Zone × Zone)) (ng : ZoneStore),
      (∀ pr ∈ cp, isKey ng pr.1 ∧ isKey ng pr.2 ∧ pr.1 ⊆ parent ∧ pr.2 ⊆ parent) →
      ExactStore M ng → StoreSub u ng →
      ExactStore M (phase2Step groups parent cp ng) ∧
      StoreSub u (phase2Step groups parent cp ng) := by
  intro cp
  induction cp with
  | nil => intro ng _ hex hsub; exact ⟨hex, hsub⟩
  | cons pr rest ih =>
    intro ng hcp hex hsub
    obtain ⟨c, oc⟩ := pr
    have hc := hcp (c, oc) (by simp)
    have hcp2 : ∀ pr ∈ rest, isKey ng pr.1 ∧ isKey ng pr.2 ∧ pr.1 ⊆ parent ∧ pr.2 ⊆ parent :=
      fun pr hpr => hcp pr (List.mem_cons_of_mem _ hpr)
    simp only [phase2Step]
    split
    · next hdisj =>
      split
      · have hval : dictFind groups parent - dictFind ng c - dictFind ng oc =
            ((((parent \ c) \ oc) ∩ M).card : Int) := by
          rw [dictFind_exact hgex hpk, dictFind_exact hex hc.1, dictFind_exact hex hc.2.1]
          exact (card_sdiff_sdiff hc.2.2.1 hc.2.2.2 hdisj).symm
        have hex2 := dictInsert_exact hex hval
        have hparu : ∀ p ∈ parent, p ∈ u := by
          obtain ⟨pv, hpv⟩ := hpk
          exact fun p hp => hgsub _ hpv p hp
        have hncu : ∀ p ∈ (parent \ c) \ oc, p ∈ u := fun p hp =>
          hparu p (Finset.mem_sdiff.mp (Finset.mem_sdiff.mp hp).1).1
        have hsub2 : StoreSub u (dictInsert ng ((parent \ c) \ oc)
            (dictFind groups parent - dictFind ng c - dictFind ng oc)) :=
          dictInsert_sub hsub hncu
        refine ih _ ?_ hex2 hsub2
        intro pr hpr
        have h0 := hcp2 pr hpr
        exact ⟨dictInsert_isKey_mono h0.1 _ _, dictInsert_isKey_mono h0.2.1 _ _, h0.2.2⟩
      · exact ih _ hcp2 hex hsub
    · exact ih _ hcp2 hex hsub

theorem phase2_key_mono {groups : ZoneStore} : ∀ (par : Parents) (ng : ZoneStore) (k : Zone),
    isKey ng k → isKey (phase2 groups par ng) k := by
  intro par
  induction par with
  | nil => intro ng k h; exact h
  | cons pe rest ih =>
    intro ng k h
    obtain ⟨parent, children⟩ := pe
    simp only [phase2]
    exact ih _ k (phase2Step_key_mono _ _ k h)

theorem phase2_spec {M : Finset Pos} {u : List Pos} {groups : ZoneStore}
    (hgex : ExactStore M groups) (hgsub : StoreSub u groups) :
    ∀ (par : Parents) (ng : ZoneStore),
      ParOK groups ng par → ExactStore M ng → StoreSub u ng →
      ExactStore M (phase2 groups par ng) ∧ StoreSub u (phase2 groups par ng) := by
  intro par
  induction par with
  | nil => intro ng _ hex hsub; exact ⟨hex, hsub⟩
  | cons pe rest ih =>
    intro ng hpar hex hsub
    obtain ⟨parent, children⟩ := pe
    have hpe := hpar (parent, children) (by simp)
    simp only [phase2]
    have hcp : ∀ pr ∈ childPairs children,
        isKey ng pr.1 ∧ isKey ng pr.2 ∧ pr.1 ⊆ parent ∧ pr.2 ⊆ parent := by
      intro pr hpr
      have hm := childPairs_mem pr hpr
      exact ⟨(hpe.2 _ hm.1).1, (hpe.2 _ hm.2).1, (hpe.2 _ hm.1).2, (hpe.2 _ hm.2).2⟩
    have hstep := phase2Step_spec hgex hgsub hpe.1 (childPairs children) ng hcp hex hsub
    refine ih _ ?_ hstep.1 hstep.2
    intro pe2 hpe2
    have h0 := hpar pe2 (List.mem_cons_of_mem _ hpe2)
    exact ⟨h0.1, fun c hc => ⟨phase2Step_key_mono _ _ c (h0.2 c hc).1, (h0.2 c hc).2⟩⟩

/-! ### derivedGroups lemmas -/

theorem derivedGroups_spec {M : Finset Pos} {u : List Pos} {groups : ZoneStore}
    (hgex : ExactStore M groups) (hgsub : StoreSub u groups) :
    ExactStore M (derivedGroups groups) ∧ StoreSub u (derivedGroups groups) := by
  unfold derivedGroups
  have hempty_ex : ExactStore M ([] : ZoneStore) := fun e he => absurd he (List.not_mem_nil e)
  have hempty_sub : StoreSub u ([] : ZoneStore) := fun e he => absurd he (List.not_mem_nil e)
  have hempty_par : ParOK groups ([] : ZoneStore) ([] : Parents) :=
    fun pe hpe => absurd hpe (List.not_mem_nil pe)
  have h1 := phase1_spec hgex hgsub (pairsOf groups) [] []
    pairsOf_mem hempty_ex hempty_sub hempty_par
  exact phase2_spec hgex hgsub _ _ h1.2.2 h1.1 h1.2.1

theorem derivedGroups_creates {groups : ZoneStore} {A B : Zone} {a b : Int}
    (hA : (A, a) ∈ groups) (hB : (B, b) ∈ groups) (hAB : A ⊆ B) (hne : A ≠ B) :
    isKey (derivedGroups groups) (B \ A) := by
  unfold derivedGroups
  apply phase2_key_mono
  exact phase1_creates _ _ _ _ _ _ _ (pairsOf_mem_intro hA hB) hAB hne

/-! ### applyGroups soundness -/

theorem zoneList_mem {z : Zone} {p : Pos} : p ∈ zoneList z ↔ p ∈ z := by
  obtain ⟨val, hnd⟩ := z
  induction val using Quotient.inductionOn with
  | _ l =>
    show p ∈ List.insertionSort posLe l ↔ _
    rw [(List.perm_insertionSort posLe l).mem_iff]
    exact Iff.rfl

theorem applyGroups_sound {key : String} {M : Finset Pos} :
    ∀ (ng : ZoneStore) (s t : SState), applyGroups key ng s = some t →
      InvW s → ExactStore M ng →
      SoundFrom M s t ∧
      (∀ z c, (z, c) ∈ ng → ((z.card : Int) = c ∨ c = 0) → ∀ p ∈ z, p ∉ t.unknowns) := by
  intro ng
  induction ng with
  | nil =>
    intro s t h hinv _
    have ht := Option.some.inj h
    subst ht
    refine ⟨fun p hp hnp => absurd hp hnp, ?_⟩
    intro z c hz
    cases hz
  | cons e rest ih =>
    intro s t h hinv hex
    obtain ⟨z, c⟩ := e
    have hextail : ExactStore M rest := fun e2 he2 => hex e2 (List.mem_cons_of_mem _ he2)
    have hcz : c = ((z ∩ M).card : Int) := hex (z, c) (by simp)
    simp only [applyGroups] at h
    by_cases hcard : (z.card : Int) = c
    · rw [if_pos hcard] at h
      have hinv2 := (flagCells_step (zoneList z) s).inv hinv
      obtain ⟨ihs, ihz⟩ := ih _ t h hinv2 hextail
      have hzM : z ⊆ M := by
        have h1 : (z.card : Int) = ((z ∩ M).card : Int) := hcard.trans hcz
        have h2 : z.card ≤ (z ∩ M).card := by omega
        have h3 : z ∩ M = z :=
          Finset.eq_of_subset_of_card_le Finset.inter_subset_left h2
        exact Finset.inter_eq_left.mp h3
      refine ⟨?_, ?_⟩
      · intro p hp hnp
        by_cases hp2 : p ∈ (flagCells (zoneList z) s).unknowns
        · exact ihs p hp2 hnp
        · have hres := flagCells_resolved (zoneList z) s p hinv hp hp2
          have hpz : p ∈ z := zoneList_mem.mp hres.2
          left
          have hstep := applyGroups_step rest _ t h
          rw [hstep.stable p hp2]
          exact ⟨hres.1, hzM hpz⟩
      · intro z2 c2 hz2 hcond p hp
        rcases List.mem_cons.mp hz2 with hz2 | hz2
        · injection hz2 with hz2a hz2b
          rw [hz2a] at hp
          have hnp2 : p ∉ (flagCells (zoneList z) s).unknowns := by
            by_cases hps : p ∈ s.unknowns
            · exact (flagCells_mem_flag (zoneList z) s p hinv (zoneList_mem.mpr hp) hps).2.1
            · exact fun hc => hps ((flagCells_step (zoneList z) s).sub p hc)
          exact fun hc => hnp2 ((applyGroups_step rest _ t h).sub p hc)
        · exact ihz z2 c2 hz2 hcond p hp
    · rw [if_neg hcard] at h
      by_cases hc0 : c = 0
      · rw [if_pos hc0] at h
        split at h
        · simp at h
        · next m hm =>
          have hinv2 := (openCells_step _ s m hm).inv hinv
          obtain ⟨ihs, ihz⟩ := ih m t h hinv2 hextail
          have hzM : ∀ p ∈ z, p ∉ M := by
            intro p hp hpM
            have h1 : ((z ∩ M).card : Int) = 0 := by rw [← hcz]; exact hc0
            have h2 : (z ∩ M).card = 0 := by omega
            rw [Finset.card_eq_zero] at h2
            have h3 : p ∈ z ∩ M := Finset.mem_inter.mpr ⟨hp, hpM⟩
            rw [h2] at h3
            cases h3
          refine ⟨?_, ?_⟩
          · intro p hp hnp
            by_cases hp2 : p ∈ m.unknowns
            · exact ihs p hp2 hnp
            · have hres := openCells_resolved _ s m p hinv hm hp hp2
              right
              have hstep := applyGroups_step rest m t h
              rw [hstep.stable p hp2]
              exact ⟨hres.1, hzM p (zoneList_mem.mp hres.2)⟩
          · intro z2 c2 hz2 hcond p hp
            rcases List.mem_cons.mp hz2 with hz2 | hz2
            · injection hz2 with hz2a hz2b
              rw [hz2a] at hp
              have hnp2 : p ∉ m.unknowns := by
                by_cases hps : p ∈ s.unknowns
                · exact (openCells_mem_open _ s m p hinv hm (zoneList_mem.mpr hp) hps).2.1
                · exact fun hc => hps ((openCells_step _ s m hm).sub p hc)
              exact fun hc => hnp2 ((applyGroups_step rest m t h).sub p hc)
            · exact ihz z2 c2 hz2 hcond p hp
      · rw [if_neg hc0] at h
        obtain ⟨ihs, ihz⟩ := ih s t h hinv hextail
        refine ⟨ihs, ?_⟩
        intro z2 c2 hz2 hcond p hp
        rcases List.mem_cons.mp hz2 with hz2 | hz2
        · injection hz2 with hz2a hz2b
          rw [hz2a, hz2b] at hcond
          rcases hcond with hcond | hcond
          · exact absurd hcond hcard
          · exact absurd hcond hc0
        · exact ihz z2 c2 hz2 hcond p hp

/-! ### Cell-change shape lemmas for exclusive_deduction -/

theorem flagOne_cell_or (q : Pos) (s : SState) (p : Pos) :
    cellAt (flagOne q s).board p = "x" ∨ cellAt (flagOne q s).board p = cellAt s.board p := by
  unfold flagOne
  split
  · rcases cellAt_setCell_or (b := s.board) (p := p) (q := q) (v := flagTok) with he | he
    · exact Or.inl he
    · exact Or.inr he
  · exact Or.inr rfl

theorem flagCells_or : ∀ (ps : List Pos) (s : SState) (p : Pos),
    cellAt (flagCells ps s).board p = "x" ∨
    cellAt (flagCells ps s).board p = cellAt s.board p := by
  intro ps
  induction ps with
  | nil => intro s p; exact Or.inr rfl
  | cons q rest ih =>
    intro s p
    show cellAt (flagCells rest (flagOne q s)).board p = "x" ∨ _
    rcases ih (flagOne q s) p with h | h
    · exact Or.inl h
    · rcases flagOne_cell_or q s p with h2 | h2
      · exact Or.inl (h.trans h2)
      · exact Or.inr (h.trans h2)

theorem exGo_or : ∀ (pl : List ((Zone × Int) × (Zone × Int))) (s : SState) (p : Pos),
    cellAt (exGo pl s).board p = "x" ∨ cellAt (exGo pl s).board p = cellAt s.board p := by
  intro pl
  induction pl with
  | nil => intro s p; exact Or.inr rfl
  | cons pr rest ih =>
    intro s p
    obtain ⟨⟨g, gn⟩, o, on_⟩ := pr
    simp only [exGo]
    split
    · split
      · split
        · exact flagCells_or _ s p
        · split
          · exact flagCells_or _ s p
          · exact ih s p
      · exact ih s p
    · exact ih s p

/-! ### Claim C1 -/

/-- C1, counterexample.  The claim says `solve_mine` returns either the fully
revealed board (no `?` token remaining) or the single token `?`.  On the
non-rectangular input board `"? ?\n0 0 ?"` (second row longer than the
first), the solver succeeds with a board string whose re-parsed cell `(1,2)`
is still the token `?`: a third kind of return value the claim excludes. -/
theorem C1_counterexample :
    solve_mine "0 0\n0 0 0" "? ?\n0 0 ?" 1 = some "0 0\n0 0 ?" ∧
    ("0 0\n0 0 ?" : String) ≠ "?" ∧
    cellAt (parseBoard "0 0\n0 0 ?") (1, 2) = "?" :=
  ⟨by decide, by decide, by decide⟩

/-- C1, amended.  For every rectangular input board string and every mine
count, if `solve_mine` returns a value, it is either the token `?` or the
board text of a final state in which the unknowns set is empty and no cell
holds the token `?` (the board is fully resolved); no other return value is
possible. -/
theorem C1_solve_contract (key mapStr : String) (n : Int) (s : String)
    (hrect : Rectangular (parseBoard mapStr))
    (h : solve_mine key mapStr n = some s) :
    s = "?" ∨ ∃ t : SState, solveState key mapStr n = some (t, s) ∧ t.unknowns = [] ∧
      ∀ p : Pos, cellAt t.board p ≠ "?" := by
  unfold solve_mine at h
  cases hss : solveState key mapStr n with
  | none => rw [hss] at h; cases h
  | some pr =>
    rw [hss] at h
    obtain ⟨t, r⟩ := pr
    have hs : r = s := by simpa using h
    by_cases hq : s = "?"
    · exact Or.inl hq
    · right
      have hspec := solveState_spec hss
      have hemp : t.unknowns = [] := hspec.2 (by rw [hs]; exact hq)
      refine ⟨t, by rw [hs], hemp, ?_⟩
      intro p hp
      have hcoh : Coh2 t := hspec.1.coh (initInvW _ n) (initCoh2 hrect n)
      have hmem := hcoh p hp
      rw [hemp] at hmem
      cases hmem

/-- C1, witness at a concrete solvable rectangular board. -/
theorem C1_solve_contract_witness :
    ("1 1\n1 x" : String) = "?" ∨
    ∃ t : SState, solveState "1 1\n1 x" "1 1\n1 ?" 1 = some (t, "1 1\n1 x") ∧
      t.unknowns = [] ∧ ∀ p : Pos, cellAt t.board p ≠ "?" :=
  C1_solve_contract "1 1\n1 x" "1 1\n1 ?" 1 "1 1\n1 x"
    (by unfold Rectangular; decide) (by decide)

/-! ### Claim C2 -/

/-- C2, counterexample.  Zones `A = {(0,0),(0,1)} ↦ a = 1` and
`B = {(0,1),(0,2)} ↦ b = 2` are in the store, their overlap `S = {(0,1)}` is
nonempty, the forced minimum `max(a − |A − S|, b − |B − S|, 0)` equals
`a = 1`, and `A − S = {(0,0)}` is nonempty — yet after `exclusive_deduction`
the member `(0,0)` of `A − S` is still the Hidden token `?`: it was not
revealed as the claim requires (the rule instead flagged `(0,2)`). -/
theorem C2_counterexample :
    (({(0,0),(0,1)} : Finset Pos), (1 : Int)) ∈
      get_groups exState.board [(1,0),(1,2)] exState.unknowns ∧
    (({(0,1),(0,2)} : Finset Pos), (2 : Int)) ∈
      get_groups exState.board [(1,0),(1,2)] exState.unknowns ∧
    ({(0,0),(0,1)} : Finset Pos) ∩ {(0,1),(0,2)} ≠ ∅ ∧
    max ((1 : Int) - ((({(0,0),(0,1)} : Finset Pos) \ {(0,1),(0,2)}).card : Int))
      (max ((2 : Int) - ((({(0,1),(0,2)} : Finset Pos) \ {(0,0),(0,1)}).card : Int)) 0) = 1 ∧
    (({(0,0),(0,1)} : Finset Pos) \ {(0,1),(0,2)}) ≠ ∅ ∧
    (0, 0) ∈ (({(0,0),(0,1)} : Finset Pos) \ {(0,1),(0,2)}) ∧
    cellAt (exclusive_deduction [(1,0),(1,2)] exState).board (0, 0) = "?" :=
  ⟨by decide, by decide, by decide, by decide, by decide, by decide, by decide⟩

/-- C2, amended.  `exclusive_deduction` performs no reveals at all: every
cell it changes is written as the flag token `x`.  In the claim situation
(forced minimum in the overlap equals `a` with `A − S` nonempty) the members
of `A − S` are therefore never revealed by this rule; the rule can only flag
a remainder. -/
theorem C2_exclusive_only_flags (frontier : List Pos) (s : SState) (p : Pos)
    (hch : cellAt (exclusive_deduction frontier s).board p ≠ cellAt s.board p) :
    cellAt (exclusive_deduction frontier s).board p = "x" := by
  unfold exclusive_deduction at hch ⊢
  rcases exGo_or (pairsOf (get_groups s.board frontier s.unknowns)) s p with h | h
  · exact h
  · exact absurd h hch

/-- C2, witness: the cell `(0,2)` changed by `exclusive_deduction` on the
counterexample board was written as `x`. -/
theorem C2_exclusive_only_flags_witness :
    cellAt (exclusive_deduction [(1,0),(1,2)] exState).board (0, 2) = "x" :=
  C2_exclusive_only_flags [(1,0),(1,2)] exState (0, 2) (by decide)

/-! ### Claim C3 -/

/-- C3, counterexample.  On the board `1 ? 2`, the frontier squares `(0,0)`
and `(0,2)` produce the identical member-set `{(0,1)}` with conflicting
counts `1` and `2`, and `get_groups` does not fail: it silently returns the
one-entry store keeping the later count `2`. -/
theorem C3_counterexample :
    zoneKey dupBoard [(0,1)] (0, 0) = zoneKey dupBoard [(0,1)] (0, 2) ∧
    count_remaining_mines (0, 0) dupBoard = 1 ∧
    count_remaining_mines (0, 2) dupBoard = 2 ∧
    get_groups dupBoard [(0,0), (0,2)] [(0,1)] = [({(0,1)}, 2)] :=
  ⟨by decide, by decide, by decide, by decide⟩

/-- C3, amended.  Zone-store construction never fails: when several frontier
squares produce the same member-set, the store keeps the count of the last
such square in iteration order (Python dict-comprehension overwrite), even
when the counts conflict. -/
theorem C3_last_writer_wins (b : Board) (u : List Pos) (f1 f2 : List Pos) (pos : Pos)
    (hf2 : ∀ q ∈ f2, zoneKey b u q ≠ zoneKey b u pos) :
    dictFind? (get_groups b (f1 ++ pos :: f2) u) (zoneKey b u pos) =
      some (count_remaining_mines pos b) := by
  unfold get_groups
  rw [List.foldl_append, List.foldl_cons]
  exact get_groups_preserve f2 _ hf2 (dictFind?_insert_self _ _ _)

/-- C3, witness on the conflicting-count board: the stored count for the
duplicated member-set is the later square\u2019s count. -/
theorem C3_last_writer_wins_witness :
    dictFind? (get_groups dupBoard ([(0,0)] ++ (0,2) :: []) [(0,1)])
      (zoneKey dupBoard [(0,1)] (0, 2)) = some (count_remaining_mines (0, 2) dupBoard) :=
  C3_last_writer_wins dupBoard [(0,1)] [(0,0)] [] (0, 2) (by simp)

/-! ### Claim C4 -/

/-- C4, counterexample.  With `n = 5` claimed mines, the board `1 1 / 1 ?`
is reported solved (`"1 1\n1 x"`, not `?`) although only one cell was ever
flagged — the solver never checks that the flag count reaches `n`. -/
theorem C4_counterexample :
    (solveState "1 1\n1 x" "1 1\n1 ?" 5).map (fun pr => (pr.2, pr.1.flagged.length)) =
      some ("1 1\n1 x", 1) ∧
    ("1 1\n1 x" : String) ≠ "?" ∧ (1 : Nat) ≠ 5 :=
  ⟨by decide, by decide, by decide⟩

/-- C4, amended.  The solver declares success exactly on emptying the
unknowns set: whenever `solve_mine` returns a result other than `?`, every
Hidden cell has been resolved — but the flag-count-reaches-`n` condition is
not checked (see the counterexample). -/
theorem C4_success_requires_resolved (key mapStr : String) (n : Int) (t : SState)
    (r : String) (h : solveState key mapStr n = some (t, r)) (hr : r ≠ "?") :
    t.unknowns = [] :=
  (solveState_spec h).2 hr

/-- C4, witness at a concrete solved board. -/
theorem C4_success_requires_resolved_witness :
    (⟨[["x", "1", "0"]], [], 1, [], [(0, 2)]⟩ : SState).unknowns = [] :=
  C4_success_requires_resolved "x 1 0" "x 1 ?" 1 _ "x 1 0" (by decide) (by decide)

/-! ### Claim C5 -/

/-- C5, confirmed.  Mark rule of local saturation: when `basic_analysis`
reaches frontier square `rc` (having processed the prefix `l1`, yielding
state `s1`), if the hint equals the number of flagged neighbors plus the
number of hidden neighbors, then the pass flags every hidden neighbor of
`rc` (writes `x`) and removes each from the unknowns set. -/
theorem C5_mark_rule (key : String) (l1 l2 : List Pos) (rc : Pos) (s s1 t : SState)
    (h1 : basic_analysis key l1 s = some s1)
    (hinv : InvW s1) (hcoh : Coh2 s1)
    (heq : parseNat (cellAt s1.board rc) =
      ((get_neighbors rc.1 rc.2 s1.board).filter (fun p => cellAt s1.board p = "x")).length +
      ((get_neighbors rc.1 rc.2 s1.board).filter (fun p => cellAt s1.board p = "?")).length)
    (h : basic_analysis key (l1 ++ rc :: l2) s = some t) :
    ∀ p ∈ (get_neighbors rc.1 rc.2 s1.board).filter (fun p => cellAt s1.board p = "?"),
      cellAt t.board p = "x" ∧ p ∉ t.unknowns := by
  intro p hp
  rw [basic_analysis_append, h1] at h
  replace h : basic_analysis key (rc :: l2) s1 = some t := h
  simp only [basic_analysis] at h
  split at h
  · simp at h
  · next s2 hs2 =>
    have hflag := basicStep_flagAll hinv hcoh heq hs2 p hp
    have hstep := basic_analysis_step l2 s2 t h
    constructor
    · rw [hstep.stable p hflag.2]
      exact hflag.1
    · exact fun hc => hflag.2 (hstep.sub p hc)

/-- C5, witness: on board `1 1 / 1 ?`, the square `(0,0)` has hint 1, no
flagged neighbor and one hidden neighbor `(1,1)`; the pass flags it. -/
theorem C5_mark_rule_witness :
    cellAt (⟨[["1", "1"], ["1", "x"]], [], 0, [(1, 1)], []⟩ : SState).board (1, 1) = "x" ∧
    (1, 1) ∉ (⟨[["1", "1"], ["1", "x"]], [], 0, [(1, 1)], []⟩ : SState).unknowns :=
  C5_mark_rule "k" [] [] (0, 0)
    ⟨parseBoard "1 1\n1 ?", initUnknowns (parseBoard "1 1\n1 ?"), 1, [], []⟩
    ⟨parseBoard "1 1\n1 ?", initUnknowns (parseBoard "1 1\n1 ?"), 1, [], []⟩
    ⟨[["1", "1"], ["1", "x"]], [], 0, [(1, 1)], []⟩
    rfl (initInvW _ 1) (initCoh2 (by unfold Rectangular; decide) 1)
    (by decide) (by decide) (1, 1) (by decide)

/-! ### Claim C6 -/

/-- C6, confirmed.  Subset decomposition: for any two zones `(A, a)` and
`(B, b)` in the store with `A` a proper subset of `B`, and any mine set `M`
for which the store is exact (each count is precisely the number of mines in
the zone — the spec\u2019s central zone invariant), `inclusive_deduction`
derives the zone `B − A` with count `b − a` in its `new_groups`, and after
the update every derived zone whose count equals its size has all members
flagged `x` while every derived zone with count `0` has all members revealed
(numeric). -/
theorem C6_subset_decomposition (key : String) (frontier : List Pos) (s t : SState)
    (M : Finset Pos) (A B : Zone) (a b : Int)
    (hinv : InvW s)
    (hex : ExactStore M (get_groups s.board frontier s.unknowns))
    (hA : (A, a) ∈ get_groups s.board frontier s.unknowns)
    (hB : (B, b) ∈ get_groups s.board frontier s.unknowns)
    (hAB : A ⊆ B) (hne : A ≠ B)
    (h : inclusive_deduction key frontier s = some t) :
    dictFind? (derivedGroups (get_groups s.board frontier s.unknowns)) (B \ A) =
      some (b - a) ∧
    ∀ z c, (z, c) ∈ derivedGroups (get_groups s.board frontier s.unknowns) →
      (((z.card : Int) = c → ∀ p ∈ z, cellAt t.board p = "x") ∧
       (c = 0 → ∀ p ∈ z, str_isnumeric (cellAt t.board p) = true)) := by
  have hgsub : StoreSub s.unknowns (get_groups s.board frontier s.unknowns) :=
    get_groups_sub _ _ _
  have hd := derivedGroups_spec hex hgsub
  constructor
  · have hkey := derivedGroups_creates hA hB hAB hne
    rw [dictFind?_exact _ _ hd.1 hkey]
    have hae : a = ((A ∩ M).card : Int) := hex _ hA
    have hbe : b = ((B ∩ M).card : Int) := hex _ hB
    rw [card_inter_sdiff hAB, ← hae, ← hbe]
  · unfold inclusive_deduction at h
    obtain ⟨hsound, hdone⟩ := applyGroups_sound _ s t h hinv hd.1
    intro z c hz
    constructor
    · intro hcard p hp
      have hmemu : p ∈ s.unknowns := hd.2 (z, c) hz p hp
      have hnmem : p ∉ t.unknowns := hdone z c hz (Or.inl hcard) p hp
      rcases hsound p hmemu hnmem with hres | hres
      · exact hres.1
      · exfalso
        have hcz : c = ((z ∩ M).card : Int) := hd.1 (z, c) hz
        have h1 : (z.card : Int) = ((z ∩ M).card : Int) := hcard.trans hcz
        have h2 : z.card ≤ (z ∩ M).card := by omega
        have h3 : z ∩ M = z :=
          Finset.eq_of_subset_of_card_le Finset.inter_subset_left h2
        exact hres.2 (Finset.inter_eq_left.mp h3 hp)
    · intro hc0 p hp
      have hmemu : p ∈ s.unknowns := hd.2 (z, c) hz p hp
      have hnmem : p ∉ t.unknowns := hdone z c hz (Or.inr hc0) p hp
      rcases hsound p hmemu hnmem with hres | hres
      · exfalso
        have hcz : c = ((z ∩ M).card : Int) := hd.1 (z, c) hz
        have h1 : ((z ∩ M).card : Int) = 0 := by rw [← hcz]; exact hc0
        have h2 : (z ∩ M).card = 0 := by omega
        rw [Finset.card_eq_zero] at h2
        have h3 : p ∈ z ∩ M := Finset.mem_inter.mpr ⟨hp, hres.2⟩
        rw [h2] at h3
        cases h3
      · exact hres.1

/-- C6, witness: with zones `{(0,0)} ↦ 1 ⊂ {(0,0),(2,0)} ↦ 1` (exact for the
mine set `{(0,0)}`), the derived store maps `{(0,0),(2,0)} − {(0,0)}` to
`1 − 1`. -/
theorem C6_subset_decomposition_witness :
    dictFind? (derivedGroups (get_groups incState.board [(0,1),(1,0),(1,1),(2,1)]
        incState.unknowns)) (({(0,0),(2,0)} : Finset Pos) \ {(0,0)}) =
      some (1 - 1) :=
  (C6_subset_decomposition "x 1 0\n1 1 0\n0 0 0" [(0,1),(1,0),(1,1),(2,1)] incState
    ⟨[["x","1","0"],["1","1","0"],["0","0","0"]], [], 0, [(0,0)], [(2,0)]⟩
    {(0,0)} {(0,0)} {(0,0),(2,0)} 1 1
    (by unfold InvW; refine ⟨by decide, by decide, by decide, by decide⟩)
    (by unfold ExactStore; decide) (by decide) (by decide) (by decide) (by decide)
    (by decide)).1

/-! ### Claim C7 -/

/-- C7, confirmed.  Safety invariant: in every completed execution of the
solver, no position passed to the oracle (`opened` trace) is a position the
engine flagged as a mine (`flagged` trace); flagged positions show `x` and
are removed from the unknowns set, and the oracle is only invoked on
positions still in the unknowns set. -/
theorem C7_oracle_never_on_flagged (key mapStr : String) (n : Int) (t : SState)
    (r : String) (h : solveState key mapStr n = some (t, r)) :
    ∀ p ∈ t.opened, p ∉ t.flagged := by
  intro p hpo hpf
  have hinv : InvW t := (solveState_spec h).1.inv (initInvW _ n)
  have h1 := hinv.2.2.2 p hpo
  have h2 := hinv.2.2.1 p hpf
  rw [h2] at h1
  exact absurd h1 (by decide)

/-- C7, witness on a run that both opens (`(0,2)`) and flags (`(0,3)`). -/
theorem C7_oracle_never_on_flagged_witness :
    (0, 2) ∉ (⟨[["x", "1", "1", "x"]], [], 0, [(0, 3)], [(0, 2)]⟩ : SState).flagged :=
  C7_oracle_never_on_flagged "x 1 1 x" "x 1 ? ?" 1
    ⟨[["x", "1", "1", "x"]], [], 0, [(0, 3)], [(0, 2)]⟩ "x 1 1 x"
    (by decide) (0, 2) (by decide)

/-! ### Claim C8 -/

/-- C8, confirmed.  Monotonicity: every invocation of a heuristic of the
solver loop (`basic_analysis`, `inclusive_deduction`, `exclusive_deduction`
or `numerical_deduction`, dispatched by index) makes progress: the unknowns
set never grows and no cell is ever rewritten to the Hidden token `?`. -/
theorem C8_monotonicity (key : String) (frontier : List Pos) (idx : Nat) (s t : SState)
    (h : runHeuristic key frontier idx s = some t) : Progress s t :=
  ⟨(runHeuristic_step h).sub, (runHeuristic_step h).noq⟩

/-- C8, witness at a concrete `basic_analysis` invocation that flags a cell. -/
theorem C8_monotonicity_witness :
    Progress (⟨[["1", "1"], ["1", "?"]], [(1, 1)], 5, [], []⟩ : SState)
      (⟨[["1", "1"], ["1", "x"]], [], 4, [(1, 1)], []⟩ : SState) :=
  C8_monotonicity "1 1\n1 x" [(0,0), (0,1), (1,0)] 0
    ⟨[["1", "1"], ["1", "?"]], [(1, 1)], 5, [], []⟩
    ⟨[["1", "1"], ["1", "x"]], [], 4, [(1, 1)], []⟩ (by decide)

/-! ### Claim C9 -/

/-- C9, counterexample.  The claim says the oracle fails exactly when the
position is a mine or already revealed.  Position `(0,0)` of the input board
`"0 ?"` is already revealed, yet `open` on the key `"0 x"` succeeds there
(the oracle is stateless and only checks the key token); so
already-revealed positions do not make it fail. -/
theorem C9_counterexample :
    cellAt (parseBoard "0 ?") (0, 0) ≠ "?" ∧
    open_ "0 x" 0 0 = some 0 ∧
    open_ "0 x" 0 1 = none :=
  ⟨by decide, by decide, by decide⟩

/-- C9, amended.  The oracle fails exactly on the key: it returns `none`
when the key token at the position is the mine token `x` (or the position is
out of range or unparseable), and returns the parsed hint — an integer in
`[0, 8]` for well-formed hint tokens — when it is a digit token; being
already revealed never makes it fail. -/
theorem C9_oracle_contract (key : String) (row col : Nat) (res : String)
    (hres : keyCell? key row col = some res) :
    (res = "x" → open_ key row col = none) ∧
    (∀ d : Nat, d ≤ 8 → res = natToStr d → open_ key row col = some d ∧ d ≤ 8) := by
  have hopen : open_ key row col =
      (if res = "x" then none
       else if str_isnumeric res then some (parseNat res) else none) := by
    unfold open_
    rw [hres]
  constructor
  · intro hx
    rw [hopen, if_pos hx]
  · intro d hd hdres
    refine ⟨?_, hd⟩
    rw [hopen, if_neg (by rw [hdres]; exact natToStr_ne_x d),
      if_pos (by rw [hdres]; exact str_isnumeric_natToStr d), hdres,
      parseNat_natToStr d hd]

/-- C9, witness: on the key `"0 x"`, the mine cell fails and the hint cell
returns its value. -/
theorem C9_oracle_contract_witness :
    open_ "0 x" 0 1 = none ∧ (open_ "0 x" 0 0 = some 0 ∧ (0 : Nat) ≤ 8) :=
  ⟨(C9_oracle_contract "0 x" 0 1 "x" (by decide)).1 rfl,
   (C9_oracle_contract "0 x" 0 0 "0" (by decide)).2 0 (by decide) (by decide)⟩

/-! ### Claim C10 -/

/-- C10, confirmed.  The open rule of `basic_analysis` fires whenever the
hint is less than or equal to the number of flagged neighbors — including
the strict-inequality case — and then reveals every hidden neighbor of the
frontier square (removing it from the unknowns set and writing the numeric
oracle answer). -/
theorem C10_open_rule (key : String) (l1 l2 : List Pos) (rc : Pos) (s s1 t : SState)
    (h1 : basic_analysis key l1 s = some s1)
    (hinv : InvW s1) (hcoh : Coh2 s1)
    (hle : parseNat (cellAt s1.board rc) ≤
      ((get_neighbors rc.1 rc.2 s1.board).filter (fun p => cellAt s1.board p = "x")).length)
    (h : basic_analysis key (l1 ++ rc :: l2) s = some t) :
    ∀ p ∈ (get_neighbors rc.1 rc.2 s1.board).filter (fun p => cellAt s1.board p = "?"),
      str_isnumeric (cellAt t.board p) = true ∧ p ∉ t.unknowns := by
  intro p hp
  rw [basic_analysis_append, h1] at h
  replace h : basic_analysis key (rc :: l2) s1 = some t := h
  simp only [basic_analysis] at h
  split at h
  · simp at h
  · next s2 hs2 =>
    have hopen := basicStep_openAll hinv hcoh hle hs2 p hp
    have hstep := basic_analysis_step l2 s2 t h
    constructor
    · rw [hstep.stable p hopen.2]
      exact hopen.1
    · exact fun hc => hopen.2 (hstep.sub p hc)

/-- C10, witness: square `(0,0)` of board `1 x / x ?` has hint `1` and two
flagged neighbors (`1 < 2`, the strict case), and the hidden neighbor
`(1,1)` is revealed via the oracle. -/
theorem C10_open_rule_witness :
    str_isnumeric (cellAt (⟨[["1", "x"], ["x", "3"]], [], 1, [], [(1, 1)]⟩ : SState).board
      (1, 1)) = true ∧
    (1, 1) ∉ (⟨[["1", "x"], ["x", "3"]], [], 1, [], [(1, 1)]⟩ : SState).unknowns :=
  C10_open_rule "1 x\nx 3" [] [] (0, 0)
    ⟨parseBoard "1 x\nx ?", initUnknowns (parseBoard "1 x\nx ?"), 1, [], []⟩
    ⟨parseBoard "1 x\nx ?", initUnknowns (parseBoard "1 x\nx ?"), 1, [], []⟩
    ⟨[["1", "x"], ["x", "3"]], [], 1, [], [(1, 1)]⟩
    rfl (initInvW _ 1) (initCoh2 (by unfold Rectangular; decide) 1)
    (by decide) (by decide) (1, 1) (by decide)

end Minesweeper
